/-
Verification of the combinatorial coverage optimizer and wheeling subsystem
of the loto-serbia repository (lotto_ai/core/coverage_optimizer.py and
lotto_ai/core/wheeling.py), as a shallow embedding in Lean 4.

Conventions of the embedding:
* Python lists of ints become `List ℕ`; Python sets become `Finset`.
* Python floats become `ℚ` (the float literals 0.3 etc. are taken at their
  decimal face value; `np.std` is represented by its square, the variance,
  since the standard deviation itself is irrational in general).
* The global `random` module is modelled by an explicit oracle `Rng σ`
  threading a state `σ`; the behaviour the Python runtime guarantees for
  `random.sample` / `random.randint` / `random.choice` / `random.shuffle`
  is captured by the predicate `Rng.Valid`.  `random.sample`'s ValueError
  when the requested size exceeds the population is modelled by an explicit
  `Except.error` at the (only) call site where it can fire.
* `while` loops are written with an explicit fuel argument equal to the
  number of iterations the loop can productively perform.
-/
import Mathlib

set_option maxRecDepth 10000
set_option maxHeartbeats 1000000

/-- Python's `sorted` on a list of naturals. -/
def sortL (l : List ℕ) : List ℕ := List.insertionSort (· ≤ ·) l

/-- All combinations of `k` elements of a list, in the order produced by
`itertools.combinations` (selections are order-preserving, i.e. sublists). -/
def combinations : ℕ → List α → List (List α)
  | 0, _ => [[]]
  | _ + 1, [] => []
  | k + 1, x :: xs => (combinations k xs).map (fun c => x :: c) ++ combinations (k + 1) xs

/-- The pairs `(l[i], l[j])` for `i < j`, in the order of the Python double
loop `for i in range(len(l)): for j in range(i+1, len(l))`. -/
def pairsOf : List α → List (α × α)
  | [] => []
  | x :: xs => xs.map (fun y => (x, y)) ++ pairsOf xs

/-- The triples `(l[i], l[j], l[k])` for `i < j < k`, in the order of the
Python triple loop. -/
def triplesOf : List α → List (α × α × α)
  | [] => []
  | x :: xs => (pairsOf xs).map (fun p => (x, p.1, p.2)) ++ triplesOf xs

/-- Number of tokens shared by two tickets: `len(set(a) & set(b))`. -/
def overlapCount (a b : List ℕ) : ℕ := (a.toFinset ∩ b.toFinset).card

/-- Model of the `random` module: an oracle threading an explicit state. -/
structure Rng (σ : Type) where
  randint : ℕ → ℕ → σ → ℕ × σ
  sample : List ℕ → ℕ → σ → List ℕ × σ
  chooseOne : List ℕ → σ → ℕ × σ
  shuffle : List ℕ → σ → List ℕ × σ

/-- The guarantees the Python runtime gives for the `random` primitives. -/
structure Rng.Valid {σ : Type} (rng : Rng σ) : Prop where
  randint_le : ∀ lo hi s, lo ≤ hi → lo ≤ (rng.randint lo hi s).1 ∧ (rng.randint lo hi s).1 ≤ hi
  sample_len : ∀ l n s, n ≤ l.length → (rng.sample l n s).1.length = n
  sample_subperm : ∀ l n s, List.Subperm (rng.sample l n s).1 l
  chooseOne_mem : ∀ l s, l ≠ [] → (rng.chooseOne l s).1 ∈ l
  shuffle_perm : ∀ l s, List.Perm (rng.shuffle l s).1 l

/-- A deterministic oracle (used to instantiate theorems on concrete runs). -/
def detRng : Rng Unit where
  randint := fun lo _ s => (lo, s)
  sample := fun l n s => (l.take n, s)
  chooseOne := fun l s => (l.headD 0, s)
  shuffle := fun l s => (l, s)

theorem detRng_valid : detRng.Valid where
  randint_le := fun lo hi _ h => ⟨le_refl lo, h⟩
  sample_len := fun l n _ h => by simp [detRng, Nat.min_eq_left h]
  sample_subperm := fun l n _ => (List.take_sublist n l).subperm
  chooseOne_mem := fun l _ h => by
    cases l with
    | nil => exact absurd rfl h
    | cons a t => exact List.mem_cons_self a t
  shuffle_perm := fun l _ => List.Perm.refl l

/-- A counting oracle whose successive samples differ (used to exhibit
counterexamples where the fallback ticket differs from the sampled one). -/
def ctrRng : Rng ℕ where
  randint := fun lo _ s => (lo, s + 1)
  sample := fun l n s => ((l.drop s ++ l.take s).take n, s + 1)
  chooseOne := fun l s => (l.headD 0, s + 1)
  shuffle := fun l s => (l, s + 1)

/-! ### Configuration constants (lotto_ai/config.py) -/

def MIN_NUMBER : ℕ := 1
def MAX_NUMBER : ℕ := 39
def NUMBERS_PER_DRAW : ℕ := 7

/-- The list `range(MIN_NUMBER, MAX_NUMBER + 1)` for given bounds. -/
def numberRange (lo hi : ℕ) : List ℕ := List.range' lo (hi + 1 - lo)

/-! ### wheeling.py -/

/-- Embedding of `verify_wheel_guarantee` (wheeling.py lines 247-265):
for every combination of `guarantee_if_hit` numbers from `key_numbers`,
some ticket shares at least `guarantee_match` numbers with it. -/
def verify_wheel_guarantee (tickets : List (List ℕ)) (key_numbers : List ℕ)
    (guarantee_if_hit guarantee_match : ℕ) : Bool :=
  (combinations guarantee_if_hit key_numbers).all fun hit_combo =>
    tickets.any fun ticket => guarantee_match ≤ overlapCount hit_combo ticket

/-- Guarantee record returned by `generate_full_wheel` (string fields and
echoes of the inputs are omitted; only data-bearing fields are kept). -/
structure FullGuarantee where
  n_key_numbers : ℕ
  n_tickets : ℕ
  verified : Bool
  coverage_pct : ℚ
  deriving DecidableEq, Repr

/-- Embedding of `generate_full_wheel` (wheeling.py lines 16-57). -/
def generate_full_wheel (key_numbers : List ℕ) (n_per_ticket : ℕ) :
    Except String (List (List ℕ) × FullGuarantee) :=
  let key_numbers := sortL key_numbers
  if key_numbers.length < n_per_ticket then
    .error "Need at least n_per_ticket key numbers"
  else
    let n_tickets := Nat.choose key_numbers.length n_per_ticket
    if 500 < n_tickets then
      .error "Too many combinations"
    else
      let tickets := (combinations n_per_ticket key_numbers).map sortL
      .ok (tickets,
        { n_key_numbers := key_numbers.length
          n_tickets := tickets.length
          verified := true
          coverage_pct := 100 })

/-- Guarantee record returned by `generate_abbreviated_wheel` (wheeling.py
lines 219-242; string fields are omitted). -/
structure WheelGuarantee where
  n_key_numbers : ℕ
  n_tickets : ℕ
  guarantee_if_hit : ℕ
  guarantee_match : ℕ
  subsets_to_cover : ℕ
  subsets_covered : ℕ
  coverage_pct : ℚ
  verified : Bool
  uncovered_remaining : ℕ
  deriving DecidableEq, Repr

/-- State carried through the abbreviated-wheel greedy loop:
the tickets built so far, the set of indices (into `hit_subsets`) still
uncovered, and the oracle state. -/
structure WheelState (σ : Type) where
  tickets : List (List ℕ)
  uncovered : Finset ℕ
  rs : σ

/-- The padding loop of wheeling.py lines 144-153: while the candidate is
short, append a fresh number from the full range and re-sort.  Each pass
adds one number, so `n_per_ticket` rounds of fuel reproduce the loop. -/
def padCandidate {σ : Type} (rng : Rng σ) (n_per_ticket : ℕ) :
    ℕ → List ℕ → σ → List ℕ × σ
  | 0, cand, s => (cand, s)
  | fuel + 1, cand, s =>
    if cand.length < n_per_ticket then
      let remaining := (numberRange MIN_NUMBER MAX_NUMBER).filter (fun n => n ∉ cand)
      if remaining = [] then (cand, s)
      else
        let r := rng.chooseOne remaining s
        padCandidate rng n_per_ticket fuel (sortL (cand ++ [r.1])) r.2
    else (cand, s)

/-- One random candidate ticket of the abbreviated wheel (wheeling.py lines
130-153): a random number of key numbers, filled from non-key numbers,
padded if still short. -/
def makeCandidate {σ : Type} (rng : Rng σ) (key_numbers other_numbers : List ℕ)
    (guarantee_match n_per_ticket : ℕ) (s : σ) : List ℕ × σ :=
  let n_keys := key_numbers.length
  let min_keys_in_ticket := min guarantee_match n_keys
  let max_keys_in_ticket := min n_keys n_per_ticket
  let r0 := rng.randint min_keys_in_ticket max_keys_in_ticket s
  let n_from_keys := r0.1
  let n_fill := n_per_ticket - n_from_keys
  let r1 := rng.sample key_numbers n_from_keys r0.2
  let chosen_keys := sortL r1.1
  let r2 :=
    if 0 < n_fill ∧ other_numbers ≠ [] then
      let fill_count := min n_fill other_numbers.length
      let rf := rng.sample other_numbers fill_count r1.2
      (sortL (chosen_keys ++ sortL rf.1), rf.2)
    else (chosen_keys, r1.2)
  padCandidate rng n_per_ticket n_per_ticket r2.1 r2.2

/-- Indices of `uncovered` whose hit-subset shares at least
`guarantee_match` numbers with `ticket` (wheeling.py lines 159-166). -/
def newlyCovered (hit_subsets : List (List ℕ)) (guarantee_match : ℕ)
    (uncovered : Finset ℕ) (ticket : List ℕ) : Finset ℕ :=
  uncovered.filter (fun idx => guarantee_match ≤ overlapCount (hit_subsets.getD idx []) ticket)

/-- The candidate loop of wheeling.py lines 129-170: try `n_candidates`
random tickets, keeping the one covering strictly the most uncovered
subsets; candidates of the wrong length are skipped. -/
def wheelCandLoop {σ : Type} (rng : Rng σ) (key_numbers other_numbers : List ℕ)
    (guarantee_match n_per_ticket : ℕ) (hit_subsets : List (List ℕ))
    (uncovered : Finset ℕ) :
    ℕ → Option (List ℕ) → Finset ℕ → σ → Option (List ℕ) × Finset ℕ × σ
  | 0, best, bestN, s => (best, bestN, s)
  | k + 1, best, bestN, s =>
    let r := makeCandidate rng key_numbers other_numbers guarantee_match n_per_ticket s
    if r.1.length = n_per_ticket then
      let newly := newlyCovered hit_subsets guarantee_match uncovered r.1
      if bestN.card < newly.card then
        wheelCandLoop rng key_numbers other_numbers guarantee_match n_per_ticket
          hit_subsets uncovered k (some r.1) newly r.2
      else
        wheelCandLoop rng key_numbers other_numbers guarantee_match n_per_ticket
          hit_subsets uncovered k best bestN r.2
    else
      wheelCandLoop rng key_numbers other_numbers guarantee_match n_per_ticket
        hit_subsets uncovered k best bestN r.2

/-- The fallback of wheeling.py lines 172-197, iterating over the uncovered
indices: force a ticket containing one uncovered hit-subset plus fill. -/
def wheelFallbackGo {σ : Type} (rng : Rng σ) (key_numbers other_numbers : List ℕ)
    (guarantee_match n_per_ticket : ℕ) (hit_subsets : List (List ℕ))
    (uncovered : Finset ℕ) : List ℕ → σ → Option (List ℕ) × Finset ℕ × σ
  | [], s => (none, ∅, s)
  | idx :: rest, s =>
    let subset_nums := hit_subsets.getD idx []
    let remaining_needed := n_per_ticket - subset_nums.length
    let available := (key_numbers ++ other_numbers).filter (fun n => n ∉ subset_nums)
    let rs' := rng.shuffle available s
    let ticket_nums := sortL ((subset_nums ++ rs'.1.take remaining_needed).take n_per_ticket)
    if ticket_nums.length = n_per_ticket then
      (some ticket_nums, newlyCovered hit_subsets guarantee_match uncovered ticket_nums, rs'.2)
    else
      wheelFallbackGo rng key_numbers other_numbers guarantee_match n_per_ticket
        hit_subsets uncovered rest rs'.2

/-- The fallback over `list(uncovered)`; the iteration order of the Python
set of small ints is modelled as ascending index order. -/
def wheelFallback {σ : Type} (rng : Rng σ) (key_numbers other_numbers : List ℕ)
    (guarantee_match n_per_ticket : ℕ) (hit_subsets : List (List ℕ))
    (uncovered : Finset ℕ) (s : σ) : Option (List ℕ) × Finset ℕ × σ :=
  wheelFallbackGo rng key_numbers other_numbers guarantee_match n_per_ticket
    hit_subsets uncovered (uncovered.sort (· ≤ ·)) s

/-- One iteration of the greedy wheel loop (wheeling.py lines 117-206). -/
def wheelStep {σ : Type} (rng : Rng σ) (key_numbers other_numbers : List ℕ)
    (guarantee_match n_per_ticket : ℕ) (hit_subsets : List (List ℕ))
    (n_candidates : ℕ) (st : WheelState σ) : WheelState σ :=
  let r1 := wheelCandLoop rng key_numbers other_numbers guarantee_match
    n_per_ticket hit_subsets st.uncovered n_candidates none ∅ st.rs
  let r2 :=
    if r1.1 = none ∨ r1.2.1 = ∅ then
      wheelFallback rng key_numbers other_numbers guarantee_match n_per_ticket
        hit_subsets st.uncovered r1.2.2
    else r1
  match r2.1 with
  | some t =>
    { tickets := st.tickets ++ [t], uncovered := st.uncovered \ r2.2.1, rs := r2.2.2 }
  | none => { tickets := st.tickets, uncovered := st.uncovered, rs := r2.2.2 }

/-- The `while uncovered and len(tickets) < max_tickets` loop.  Every
productive iteration appends one ticket, so `max_tickets` rounds of fuel
reproduce the loop (an unproductive iteration would never terminate in the
source; the fuel model stops instead). -/
def wheelLoop {σ : Type} (rng : Rng σ) (key_numbers other_numbers : List ℕ)
    (guarantee_match n_per_ticket : ℕ) (hit_subsets : List (List ℕ))
    (n_candidates max_tickets : ℕ) : ℕ → WheelState σ → WheelState σ
  | 0, st => st
  | fuel + 1, st =>
    if st.uncovered ≠ ∅ ∧ st.tickets.length < max_tickets then
      wheelLoop rng key_numbers other_numbers guarantee_match n_per_ticket
        hit_subsets n_candidates max_tickets fuel
        (wheelStep rng key_numbers other_numbers guarantee_match n_per_ticket
          hit_subsets n_candidates st)
    else st

/-- Embedding of `generate_abbreviated_wheel` (wheeling.py lines 60-244). -/
def generate_abbreviated_wheel {σ : Type} (rng : Rng σ) (s : σ)
    (key_numbers : List ℕ) (guarantee_if_hit guarantee_match : ℕ)
    (n_per_ticket max_tickets : ℕ) :
    Except String (List (List ℕ) × WheelGuarantee) :=
  let key_numbers := sortL key_numbers
  let n_keys := key_numbers.length
  if n_keys < guarantee_if_hit then
    .error "Need at least guarantee_if_hit key numbers"
  else if guarantee_if_hit < guarantee_match then
    .error "guarantee_match cannot exceed guarantee_if_hit"
  else if n_per_ticket < guarantee_match then
    .error "guarantee_match cannot exceed numbers per ticket"
  else
    let hit_subsets := combinations guarantee_if_hit key_numbers
    let total_subsets := hit_subsets.length
    let other_numbers := (numberRange MIN_NUMBER MAX_NUMBER).filter (fun n => n ∉ key_numbers)
    let n_candidates := min 3000 (max 1000 (total_subsets * 10))
    let final := wheelLoop rng key_numbers other_numbers guarantee_match n_per_ticket
      hit_subsets n_candidates max_tickets max_tickets
      ⟨[], Finset.range total_subsets, s⟩
    let verified := verify_wheel_guarantee final.tickets key_numbers
      guarantee_if_hit guarantee_match
    let covered_count := total_subsets - final.uncovered.card
    let coverage_pct : ℚ :=
      if 0 < total_subsets then (covered_count : ℚ) / (total_subsets : ℚ) * 100 else 100
    .ok (final.tickets,
      { n_key_numbers := n_keys
        n_tickets := final.tickets.length
        guarantee_if_hit := guarantee_if_hit
        guarantee_match := guarantee_match
        subsets_to_cover := total_subsets
        subsets_covered := covered_count
        coverage_pct := coverage_pct
        verified := verified
        uncovered_remaining := final.uncovered.card })

/-! ### coverage_optimizer.py -/

/-- Penalty for heavy overlap with the existing portfolio
(coverage_optimizer.py lines 76-80): each existing ticket sharing at least
5 numbers with the candidate contributes `(overlap - 4) * 3`. -/
def overlapPenalty (candidate : List ℕ) : List (List ℕ) → ℕ
  | [] => 0
  | existing :: rest =>
    let overlap := overlapCount candidate existing
    (if 5 ≤ overlap then (overlap - 4) * 3 else 0) + overlapPenalty candidate rest

/-- The candidate score of coverage_optimizer.py lines 57-94: new pair and
triple coverage, minus the overlap penalty, minus balance and sum-range
adjustments. -/
def scoreCandidate (portfolio : List (List ℕ)) (covered_pairs : Finset (ℕ × ℕ))
    (covered_triples : Finset (ℕ × ℕ × ℕ)) (n_numbers min_num max_num : ℕ)
    (candidate : List ℕ) : ℚ :=
  let candidate_pairs := (pairsOf candidate).toFinset
  let candidate_triples := (triplesOf candidate).toFinset
  let new_pairs := (candidate_pairs \ covered_pairs).card
  let new_triples := (candidate_triples \ covered_triples).card
  let overlap_penalty := overlapPenalty candidate portfolio
  let score : ℚ := (new_pairs : ℚ) + 3/10 * (new_triples : ℚ) - (overlap_penalty : ℚ)
  let odd_count := (candidate.filter (fun n => n % 2 = 1)).length
  let score := if 2 ≤ odd_count ∧ odd_count ≤ 5 then score else score - 5
  let ticket_sum := candidate.sum
  let expected_sum : ℚ := (n_numbers : ℚ) * ((min_num : ℚ) + (max_num : ℚ)) / 2
  let sum_deviation := |(ticket_sum : ℚ) - expected_sum| / expected_sum
  if 3/10 < sum_deviation then score - 3 else score

/-- The accumulator of the candidate loop (coverage_optimizer.py lines
51-98): keep the candidate whose score strictly exceeds the best so far,
starting from `best_score = -1`. -/
def pickBestAux (portfolio : List (List ℕ)) (covered_pairs : Finset (ℕ × ℕ))
    (covered_triples : Finset (ℕ × ℕ × ℕ)) (n_numbers min_num max_num : ℕ) :
    List (List ℕ) → Option (List ℕ) → ℚ → Option (List ℕ)
  | [], best, _ => best
  | c :: cs, best, best_score =>
    let score := scoreCandidate portfolio covered_pairs covered_triples
      n_numbers min_num max_num c
    if best_score < score then
      pickBestAux portfolio covered_pairs covered_triples n_numbers min_num max_num
        cs (some c) score
    else
      pickBestAux portfolio covered_pairs covered_triples n_numbers min_num max_num
        cs best best_score

/-- Selection over the scored candidates of one greedy step, starting from
`best_ticket = None`, `best_score = -1`. -/
def pickBest (portfolio : List (List ℕ)) (covered_pairs : Finset (ℕ × ℕ))
    (covered_triples : Finset (ℕ × ℕ × ℕ)) (n_numbers min_num max_num : ℕ)
    (cands : List (List ℕ)) : Option (List ℕ) :=
  pickBestAux portfolio covered_pairs covered_triples n_numbers min_num max_num
    cands none (-1)

/-- Draw `k` sorted random candidate tickets (coverage_optimizer.py line 55). -/
def sampleCandidates {σ : Type} (rng : Rng σ) (all_numbers : List ℕ)
    (n_numbers : ℕ) : ℕ → σ → List (List ℕ) × σ
  | 0, s => ([], s)
  | k + 1, s =>
    let r := rng.sample all_numbers n_numbers s
    let rest := sampleCandidates rng all_numbers n_numbers k r.2
    (sortL r.1 :: rest.1, rest.2)

/-- State carried through the greedy portfolio loop. -/
structure OptState (σ : Type) where
  portfolio : List (List ℕ)
  covered_pairs : Finset (ℕ × ℕ)
  covered_triples : Finset (ℕ × ℕ × ℕ)
  rs : σ

/-- One greedy step of coverage_optimizer.py lines 50-112: sample
`monte_carlo_samples` candidates, keep the best-scoring one (falling back
to a plain random ticket when none was kept), append it, and add its pairs
and triples to the covered sets. -/
def optStep {σ : Type} (rng : Rng σ) (all_numbers : List ℕ)
    (n_numbers min_num max_num monte_carlo_samples : ℕ) (st : OptState σ) :
    OptState σ :=
  let rc := sampleCandidates rng all_numbers n_numbers monte_carlo_samples st.rs
  let best := pickBest st.portfolio st.covered_pairs st.covered_triples
    n_numbers min_num max_num rc.1
  let rt :=
    match best with
    | some t => (t, rc.2)
    | none =>
      let rf := rng.sample all_numbers n_numbers rc.2
      (sortL rf.1, rf.2)
  { portfolio := st.portfolio ++ [rt.1]
    covered_pairs := st.covered_pairs ∪ (pairsOf rt.1).toFinset
    covered_triples := st.covered_triples ∪ (triplesOf rt.1).toFinset
    rs := rt.2 }

/-- The `for ticket_idx in range(n_tickets)` loop. -/
def optLoop {σ : Type} (rng : Rng σ) (all_numbers : List ℕ)
    (n_numbers min_num max_num monte_carlo_samples : ℕ) :
    ℕ → OptState σ → OptState σ
  | 0, st => st
  | k + 1, st =>
    optLoop rng all_numbers n_numbers min_num max_num monte_carlo_samples k
      (optStep rng all_numbers n_numbers min_num max_num monte_carlo_samples st)

/-- The count computed by the double loop of coverage_optimizer.py lines
42-45: the number of pairs `(i, j)` with `min_num ≤ i < j ≤ max_num`. -/
def totalPossiblePairs (min_num max_num : ℕ) : ℕ :=
  ((numberRange min_num max_num).map (fun i => (numberRange (i + 1) max_num).length)).sum

/-- First occurrences of each value of a list, in order of first
appearance (the key order of a Python `Counter` built by iteration). -/
def firstOccs : List ℕ → List ℕ
  | [] => []
  | x :: xs => x :: (firstOccs xs).filter (fun y => y ≠ x)

/-- Mean of a list of naturals, as a rational; `0` for the empty list. -/
def listMean (l : List ℕ) : ℚ :=
  if l = [] then 0 else (l.map (fun x : ℕ => (x : ℚ))).sum / (l.length : ℚ)

/-- Variance of a list of naturals (the square of `np.std`); `0` for the
empty list. -/
def listVar (l : List ℕ) : ℚ :=
  if l = [] then 0
  else (l.map (fun x : ℕ => ((x : ℚ) - listMean l) ^ 2)).sum / (l.length : ℚ)

/-- Coverage statistics record of `_calculate_coverage_stats`
(coverage_optimizer.py lines 128-166).  The float `number_freq_std` is
represented by its square `number_freq_var` (std is irrational in
general); all other floats become rationals. -/
structure CoverageStats where
  total_tickets : ℕ
  unique_numbers : ℕ
  number_coverage_pct : ℚ
  pairs_covered : ℕ
  pairs_total : ℕ
  pair_coverage_pct : ℚ
  triples_covered : ℕ
  avg_overlap : ℚ
  max_overlap : ℕ
  min_overlap : ℕ
  number_freq_var : ℚ
  most_used_number : ℕ × ℕ
  least_used_number : ℕ × ℕ
  deriving DecidableEq, Repr

/-- Embedding of `_calculate_coverage_stats` (coverage_optimizer.py lines
128-166).  `Counter` is modelled by occurrence counts over the
concatenation of the portfolio; `most_common` by a stable sort of the
`(number, count)` items (first-occurrence key order) by descending count. -/
def calcCoverageStats (portfolio : List (List ℕ)) (covered_pairs : Finset (ℕ × ℕ))
    (covered_triples : Finset (ℕ × ℕ × ℕ)) (total_possible_pairs max_num : ℕ) :
    CoverageStats :=
  let all_numbers_used : Finset ℕ := portfolio.foldl (fun acc t => acc ∪ t.toFinset) ∅
  let overlaps : List ℕ := (pairsOf portfolio).map (fun p => overlapCount p.1 p.2)
  let flat : List ℕ := portfolio.flatten
  let items : List (ℕ × ℕ) := (firstOccs flat).map (fun n => (n, flat.count n))
  let freq_values : List ℕ := if items = [] then [0] else items.map (fun p => p.2)
  let most_common : List (ℕ × ℕ) :=
    List.insertionSort (fun p q : ℕ × ℕ => q.2 ≤ p.2) items
  { total_tickets := portfolio.length
    unique_numbers := all_numbers_used.card
    number_coverage_pct := (all_numbers_used.card : ℚ) / (max_num : ℚ) * 100
    pairs_covered := covered_pairs.card
    pairs_total := total_possible_pairs
    pair_coverage_pct :=
      if 0 < total_possible_pairs then
        (covered_pairs.card : ℚ) / (total_possible_pairs : ℚ) * 100
      else 0
    triples_covered := covered_triples.card
    avg_overlap := if overlaps = [] then 0 else listMean overlaps
    max_overlap := (overlaps.max?).getD 0
    min_overlap := (overlaps.min?).getD 0
    number_freq_var := listVar freq_values
    most_used_number := most_common.headD (0, 0)
    least_used_number := (most_common.getLast?).getD (0, 0) }

/-- Embedding of `optimize_portfolio_coverage` (coverage_optimizer.py lines
15-125).  `random.sample(all_numbers, n_numbers)` raises ValueError iff
`n_numbers` exceeds the population size, and it is called in every greedy
step (even with zero Monte Carlo samples, via the fallback), so the
ValueError is modelled by an error exactly when at least one step runs and
the population is too small. -/
def optimize_portfolio_coverage {σ : Type} (rng : Rng σ) (s : σ)
    (n_tickets n_numbers min_num max_num : ℕ)
    (monte_carlo_samples : Option ℕ) :
    Except String (List (List ℕ) × CoverageStats) :=
  let mcs := monte_carlo_samples.getD 1500
  let all_numbers := numberRange min_num max_num
  let total_possible_pairs := totalPossiblePairs min_num max_num
  if n_tickets = 0 ∨ n_numbers ≤ all_numbers.length then
    let final := optLoop rng all_numbers n_numbers min_num max_num mcs n_tickets
      ⟨[], ∅, ∅, s⟩
    .ok (final.portfolio,
      calcCoverageStats final.portfolio final.covered_pairs final.covered_triples
        total_possible_pairs max_num)
  else
    .error "Sample larger than population or is negative"

/-! ### Definitions written from the specification's words, used as the
comparison side of the functional-correctness and refinement claims. -/

/-- Spec 4.1 step 1: the unordered pairs within the candidate, as value
pairs `a < b`. -/
def specCandidatePairs (c : List ℕ) : Finset (ℕ × ℕ) :=
  (c.toFinset ×ˢ c.toFinset).filter (fun p => p.1 < p.2)

/-- Spec 4.1 step 2: the unordered triples within the candidate. -/
def specCandidateTriples (c : List ℕ) : Finset (ℕ × ℕ × ℕ) :=
  (c.toFinset ×ˢ c.toFinset ×ˢ c.toFinset).filter
    (fun p => p.1 < p.2.1 ∧ p.2.1 < p.2.2)

/-- Spec 4.1 step 3: sum over the existing portfolio of
`(overlap - 4) * 3` for each ticket of overlap at least 5. -/
def specOverlapPenalty (portfolio : List (List ℕ)) (c : List ℕ) : ℚ :=
  (portfolio.map (fun t =>
    let ov := overlapCount c t
    if 5 ≤ ov then ((ov : ℚ) - 4) * 3 else 0)).sum

/-- The claimed closed score formula (spec 4.1 steps 4-6):
`new_pairs + 0.3 * new_triples - overlap_penalty`, minus 5 when the odd
count lies outside `[2, 5]`, minus 3 when the relative sum deviation
exceeds `0.3` of `expected_sum = draw_size * (min + max) / 2`. -/
def specScore (portfolio : List (List ℕ)) (covered_pairs : Finset (ℕ × ℕ))
    (covered_triples : Finset (ℕ × ℕ × ℕ)) (n_numbers min_num max_num : ℕ)
    (c : List ℕ) : ℚ :=
  let new_pairs := ((specCandidatePairs c) \ covered_pairs).card
  let new_triples := ((specCandidateTriples c) \ covered_triples).card
  let odd_count := (c.filter (fun n => n % 2 = 1)).length
  let expected_sum : ℚ := (n_numbers : ℚ) * ((min_num : ℚ) + (max_num : ℚ)) / 2
  (new_pairs : ℚ) + 3/10 * (new_triples : ℚ) - specOverlapPenalty portfolio c
    - (if 2 ≤ odd_count ∧ odd_count ≤ 5 then 0 else 5)
    - (if 3/10 < |(c.sum : ℚ) - expected_sum| / expected_sum then 3 else 0)

/-- Variance of the per-number usage histogram over the full range
`[1, pool]`, zero counts included — the reading claimed by the spec
("histogram over `[1, pool_size]` ... including zero counts"). -/
def specFullHistogramVar (portfolio : List (List ℕ)) (pool : ℕ) : ℚ :=
  listVar ((numberRange 1 pool).map (fun n => portfolio.flatten.count n))

/-- Variance of the usage counts of only the numbers actually used by some
ticket (what the code computes, stated over the finset of used numbers). -/
def specVarUsed (portfolio : List (List ℕ)) : ℚ :=
  let flat := portfolio.flatten
  let used := flat.toFinset
  let μ : ℚ := (used.sum (fun n => ((flat.count n : ℕ) : ℚ))) / (used.card : ℚ)
  (used.sum (fun n => (((flat.count n : ℕ) : ℚ) - μ) ^ 2)) / (used.card : ℚ)

/-! ### Helper lemmas: combinations -/

theorem length_combinations (k : ℕ) (l : List α) :
    (combinations k l).length = Nat.choose l.length k := by
  induction l generalizing k with
  | nil => cases k <;> simp [combinations]
  | cons x xs ih =>
    cases k with
    | zero => simp [combinations]
    | succ k =>
      simp [combinations, ih, Nat.choose_succ_succ', Nat.add_comm]

theorem mem_combinations {k : ℕ} {l c : List α} :
    c ∈ combinations k l ↔ c.length = k ∧ c.Sublist l := by
  induction l generalizing k c with
  | nil =>
    cases k with
    | zero =>
      simp only [combinations, List.mem_singleton]
      constructor
      · rintro rfl; exact ⟨rfl, List.Sublist.refl _⟩
      · rintro ⟨h, hs⟩; exact List.eq_nil_of_length_eq_zero h
    | succ k =>
      simp only [combinations, List.not_mem_nil, false_iff, not_and]
      intro h hs
      have hle := hs.length_le
      simp only [List.length_nil] at hle
      omega
  | cons x xs ih =>
    cases k with
    | zero =>
      simp only [combinations, List.mem_singleton]
      constructor
      · rintro rfl; exact ⟨rfl, List.nil_sublist _⟩
      · rintro ⟨h, _⟩; exact List.eq_nil_of_length_eq_zero h
    | succ k =>
      simp only [combinations, List.mem_append, List.mem_map]
      constructor
      · rintro (⟨c', hc', rfl⟩ | h)
        · have := (ih).mp hc'
          exact ⟨by simp [this.1], this.2.cons₂ x⟩
        · have := (ih).mp h
          exact ⟨this.1, this.2.cons x⟩
      · rintro ⟨hlen, hs⟩
        rcases List.sublist_cons_iff.mp hs with h | ⟨r, rfl, hr⟩
        · exact Or.inr (ih.mpr ⟨hlen, h⟩)
        · exact Or.inl ⟨r, ih.mpr ⟨by simpa using hlen, hr⟩, rfl⟩

theorem combinations_eq_nil_of_lt {k : ℕ} {l : List α} (h : l.length < k) :
    combinations k l = [] := by
  have hl : (combinations k l).length = 0 := by
    rw [length_combinations, Nat.choose_eq_zero_of_lt h]
  exact List.eq_nil_of_length_eq_zero hl

theorem combinations_self {k : ℕ} {l : List α} (h : l.length = k) :
    combinations k l = [l] := by
  induction l generalizing k with
  | nil => subst h; simp [combinations]
  | cons x xs ih =>
    cases k with
    | zero => simp at h
    | succ k =>
      have hx : xs.length = k := by simpa using h
      simp [combinations, ih hx, combinations_eq_nil_of_lt (by omega : xs.length < k + 1)]

/-! ### Helper lemmas: sortL -/

theorem sortL_perm (l : List ℕ) : List.Perm (sortL l) l :=
  List.perm_insertionSort _ l

theorem sortL_sorted (l : List ℕ) : (sortL l).Sorted (· ≤ ·) :=
  List.sorted_insertionSort _ l

theorem sortL_length (l : List ℕ) : (sortL l).length = l.length :=
  List.length_insertionSort _ l

theorem sortL_nodup {l : List ℕ} (h : l.Nodup) : (sortL l).Nodup :=
  (sortL_perm l).nodup_iff.mpr h

theorem mem_sortL {l : List ℕ} {x : ℕ} : x ∈ sortL l ↔ x ∈ l :=
  (sortL_perm l).mem_iff

theorem sortL_eq_self {l : List ℕ} (h : l.Sorted (· ≤ ·)) : sortL l = l :=
  List.Sorted.insertionSort_eq h

/-- A sorted duplicate-free list is strictly sorted. -/
theorem sorted_lt_of_sorted_nodup {l : List ℕ} (hs : l.Sorted (· ≤ ·))
    (hn : l.Nodup) : l.Sorted (· < ·) := by
  induction l with
  | nil => exact List.sorted_nil
  | cons x xs ih =>
    rw [List.sorted_cons] at hs ⊢
    rw [List.nodup_cons] at hn
    refine ⟨fun b hb => lt_of_le_of_ne (hs.1 b hb) ?_, ih hs.2 hn.2⟩
    intro h
    exact hn.1 (h ▸ hb)

/-- A strictly sorted list whose members all lie in another strictly
sorted list is a sublist of it. -/
theorem sublist_of_subset_of_sorted_lt {l2 : List ℕ} :
    ∀ {l1 : List ℕ}, l1.Sorted (· < ·) → l2.Sorted (· < ·) →
      (∀ x ∈ l1, x ∈ l2) → l1.Sublist l2 := by
  induction l2 with
  | nil =>
    intro l1 h1 h2 hsub
    cases l1 with
    | nil => exact List.Sublist.refl _
    | cons a t => exact absurd (hsub a (List.mem_cons_self a t)) (List.not_mem_nil a)
  | cons b t2 ih =>
    intro l1 h1 h2 hsub
    cases l1 with
    | nil => exact List.nil_sublist _
    | cons a t1 =>
      rw [List.sorted_cons] at h1
      rcases List.mem_cons.mp (hsub a (List.mem_cons_self a t1)) with hab | hat
      · subst hab
        refine List.Sublist.cons₂ a (ih h1.2 (List.sorted_cons.mp h2).2 ?_)
        intro x hx
        rcases List.mem_cons.mp (hsub x (List.mem_cons_of_mem a hx)) with hxa | h
        · exact absurd (hxa ▸ h1.1 x hx) (lt_irrefl x)
        · exact h
      · refine List.Sublist.cons b ?_
        refine ih (List.sorted_cons.mpr h1) (List.sorted_cons.mp h2).2 ?_
        intro x hx
        rcases List.mem_cons.mp (hsub x hx) with hxb | h
        · -- x = b is impossible: b < a and a is the least member of a :: t1
          have hba : b < a := (List.sorted_cons.mp h2).1 a hat
          subst hxb
          rcases List.mem_cons.mp hx with hxa | hxt
          · omega
          · have := h1.1 _ hxt
            omega
        · exact h

/-- Every subset of the values of a duplicate-free list is realized by a
sublist. -/
theorem exists_sublist_toFinset :
    ∀ {l : List ℕ}, l.Nodup → ∀ s : Finset ℕ, s ⊆ l.toFinset →
      ∃ c : List ℕ, c.Sublist l ∧ c.toFinset = s ∧ c.length = s.card := by
  intro l
  induction l with
  | nil =>
    intro _ s hs
    refine ⟨[], List.Sublist.refl _, ?_, ?_⟩
    · simp only [List.toFinset_nil]
      exact (Finset.subset_empty.mp (by simpa using hs)).symm
    · have : s = ∅ := Finset.subset_empty.mp (by simpa using hs)
      simp [this]
  | cons x xs ih =>
    intro hn s hs
    rw [List.nodup_cons] at hn
    by_cases hxs : x ∈ s
    · have herase : s.erase x ⊆ xs.toFinset := by
        intro y hy
        have hy' := Finset.mem_of_mem_erase hy
        have hyx := Finset.ne_of_mem_erase hy
        have := hs hy'
        simp only [List.toFinset_cons, Finset.mem_insert] at this
        exact this.resolve_left hyx
      obtain ⟨c, hsub, hfin, hlen⟩ := ih hn.2 (s.erase x) herase
      refine ⟨x :: c, hsub.cons₂ x, ?_, ?_⟩
      · simp only [List.toFinset_cons, hfin]
        exact Finset.insert_erase hxs
      · have hcard := Finset.card_erase_of_mem hxs
        have hpos : 0 < s.card := Finset.card_pos.mpr ⟨x, hxs⟩
        simp only [List.length_cons, hlen, hcard]
        omega
    · have hsub' : s ⊆ xs.toFinset := by
        intro y hy
        have := hs hy
        simp only [List.toFinset_cons, Finset.mem_insert] at this
        rcases this with rfl | h
        · exact absurd hy hxs
        · exact h
      obtain ⟨c, hsub, hfin, hlen⟩ := ih hn.2 s hsub'
      exact ⟨c, hsub.cons x, hfin, hlen⟩

/-- C1.  `verify_wheel_guarantee` returns `true` if and only if every
`guarantee_if_hit`-element subset of the key numbers meets some ticket in
at least `guarantee_match` numbers. -/
theorem claim_C1_verify_guarantee_iff (tickets : List (List ℕ))
    (key_numbers : List ℕ) (guarantee_if_hit guarantee_match : ℕ)
    (hnd : key_numbers.Nodup) :
    verify_wheel_guarantee tickets key_numbers guarantee_if_hit guarantee_match = true ↔
      ∀ s ∈ key_numbers.toFinset.powersetCard guarantee_if_hit,
        ∃ t ∈ tickets, guarantee_match ≤ (s ∩ t.toFinset).card := by
  unfold verify_wheel_guarantee
  rw [List.all_eq_true]
  constructor
  · intro h s hmem
    rw [Finset.mem_powersetCard] at hmem
    obtain ⟨c, hsub, hfin, hlen⟩ := exists_sublist_toFinset hnd s hmem.1
    have hc : c ∈ combinations guarantee_if_hit key_numbers :=
      mem_combinations.mpr ⟨by rw [hlen, hmem.2], hsub⟩
    have := h c hc
    rw [List.any_eq_true] at this
    obtain ⟨t, ht, hcov⟩ := this
    refine ⟨t, ht, ?_⟩
    have := of_decide_eq_true hcov
    rwa [overlapCount, hfin] at this
  · intro h c hc
    rw [List.any_eq_true]
    obtain ⟨hlen, hsub⟩ := mem_combinations.mp hc
    have hcnd : c.Nodup := hsub.nodup hnd
    have hmem : c.toFinset ∈ key_numbers.toFinset.powersetCard guarantee_if_hit := by
      rw [Finset.mem_powersetCard]
      refine ⟨fun y hy => ?_, ?_⟩
      · rw [List.mem_toFinset] at hy
        exact List.mem_toFinset.mpr (hsub.subset hy)
      · rw [List.toFinset_card_of_nodup hcnd, hlen]
    obtain ⟨t, ht, hcov⟩ := h c.toFinset hmem
    exact ⟨t, ht, decide_eq_true hcov⟩

/-- Witness for C1: a concrete wheel whose guarantee the verifier accepts,
obtained through the theorem's backward direction. -/
theorem claim_C1_witness :
    [1, 2, 3].Nodup ∧
      verify_wheel_guarantee [[1, 2]] [1, 2, 3] 2 1 = true :=
  ⟨by decide,
    (claim_C1_verify_guarantee_iff [[1, 2]] [1, 2, 3] 2 1 (by decide)).mpr (by decide)⟩

/-- C4.  Under the size precondition, `generate_full_wheel` fails exactly
when `C(|key_numbers|, draw_size)` exceeds 500, and otherwise returns all
sorted `draw_size`-subsets of the key numbers — exactly
`C(|key_numbers|, draw_size)` tickets, a single ticket `sorted(keys)` when
`|key_numbers| = draw_size`. -/
theorem claim_C4_full_wheel (key_numbers : List ℕ) (n_per_ticket : ℕ)
    (hlen : n_per_ticket ≤ key_numbers.length) (hnd : key_numbers.Nodup) :
    ((∃ e, generate_full_wheel key_numbers n_per_ticket = .error e) ↔
      500 < Nat.choose key_numbers.length n_per_ticket) ∧
    (∀ tickets g, generate_full_wheel key_numbers n_per_ticket = .ok (tickets, g) →
      tickets.length = Nat.choose key_numbers.length n_per_ticket ∧
      (∀ t, t ∈ tickets ↔ t.length = n_per_ticket ∧ t.Sorted (· ≤ ·) ∧
        t.Nodup ∧ ∀ x ∈ t, x ∈ key_numbers) ∧
      (key_numbers.length = n_per_ticket → tickets = [sortL key_numbers])) := by
  have hslen : (sortL key_numbers).length = key_numbers.length := sortL_length _
  have hsnodup : (sortL key_numbers).Nodup := sortL_nodup hnd
  have hssorted : (sortL key_numbers).Sorted (· ≤ ·) := sortL_sorted _
  have hnotlt : ¬ (sortL key_numbers).length < n_per_ticket := by omega
  constructor
  · constructor
    · rintro ⟨e, he⟩
      by_contra hgt
      push_neg at hgt
      unfold generate_full_wheel at he
      rw [if_neg hnotlt, hslen, if_neg (by omega)] at he
      exact Except.noConfusion he
    · intro hgt
      refine ⟨"Too many combinations", ?_⟩
      unfold generate_full_wheel
      rw [if_neg hnotlt, hslen, if_pos hgt]
  · intro tickets g hok
    unfold generate_full_wheel at hok
    rw [if_neg hnotlt, hslen] at hok
    by_cases hgt : 500 < Nat.choose key_numbers.length n_per_ticket
    · rw [if_pos hgt] at hok
      exact Except.noConfusion hok
    · rw [if_neg hgt] at hok
      have htickets : tickets = (combinations n_per_ticket (sortL key_numbers)).map sortL := by
        have := congrArg (fun r => match r with
          | Except.ok (p : List (List ℕ) × FullGuarantee) => p.1
          | Except.error _ => []) hok
        simpa using this.symm
      subst htickets
      refine ⟨?_, ?_, ?_⟩
      · rw [List.length_map, length_combinations, hslen]
      · intro t
        constructor
        · intro ht
          rw [List.mem_map] at ht
          obtain ⟨c, hc, rfl⟩ := ht
          obtain ⟨hclen, hcsub⟩ := mem_combinations.mp hc
          have hcsorted : c.Sorted (· ≤ ·) := List.Pairwise.sublist hcsub hssorted
          have hcnodup : c.Nodup := hcsub.nodup hsnodup
          rw [sortL_eq_self hcsorted]
          exact ⟨hclen, hcsorted, hcnodup,
            fun x hx => mem_sortL.mp (hcsub.subset hx)⟩
        · rintro ⟨htlen, htsorted, htnodup, htmem⟩
          rw [List.mem_map]
          refine ⟨t, mem_combinations.mpr ⟨htlen, ?_⟩, sortL_eq_self htsorted⟩
          refine sublist_of_subset_of_sorted_lt
            (sorted_lt_of_sorted_nodup htsorted htnodup)
            (sorted_lt_of_sorted_nodup hssorted hsnodup) ?_
          intro x hx
          exact mem_sortL.mpr (htmem x hx)
      · intro heq
        rw [combinations_self (by rw [hslen, heq])]
        simp [sortL_eq_self hssorted]

/-- Witness for C4: the full wheel over three keys with two numbers per
ticket, giving exactly `C(3, 2) = 3` sorted tickets. -/
theorem claim_C4_witness :
    generate_full_wheel [3, 1, 2] 2 =
      .ok ([[1, 2], [1, 3], [2, 3]],
        { n_key_numbers := 3, n_tickets := 3, verified := true, coverage_pct := 100 }) ∧
    ([[1, 2], [1, 3], [2, 3]] : List (List ℕ)).length = Nat.choose 3 2 :=
  ⟨rfl,
    ((claim_C4_full_wheel [3, 1, 2] 2 (by decide) (by decide)).2
      [[1, 2], [1, 3], [2, 3]]
      { n_key_numbers := 3, n_tickets := 3, verified := true, coverage_pct := 100 }
      rfl).1⟩

/-- Membership in the positional pair list of a strictly sorted list is
membership of both components with the first smaller. -/
theorem mem_pairsOf_of_sorted :
    ∀ {l : List ℕ}, l.Sorted (· < ·) → ∀ {p : ℕ × ℕ},
      (p ∈ pairsOf l ↔ p.1 ∈ l ∧ p.2 ∈ l ∧ p.1 < p.2) := by
  intro l
  induction l with
  | nil => intro _ p; simp [pairsOf]
  | cons x xs ih =>
    intro hs p
    rw [List.sorted_cons] at hs
    simp only [pairsOf, List.mem_append, List.mem_map]
    constructor
    · rintro (⟨y, hy, rfl⟩ | h)
      · exact ⟨List.mem_cons_self x xs, List.mem_cons_of_mem x hy, hs.1 y hy⟩
      · have := (ih hs.2).mp h
        exact ⟨List.mem_cons_of_mem x this.1, List.mem_cons_of_mem x this.2.1, this.2.2⟩
    · rintro ⟨h1, h2, hlt⟩
      rcases List.mem_cons.mp h1 with rfl | h1'
      · left
        rcases List.mem_cons.mp h2 with h2x | h2'
        · omega
        · exact ⟨p.2, h2', by rw [Prod.mk.eta]⟩
      · right
        refine (ih hs.2).mpr ⟨h1', ?_, hlt⟩
        rcases List.mem_cons.mp h2 with h2x | h2'
        · have := hs.1 p.1 h1'
          omega
        · exact h2'

/-- Membership in the positional triple list of a strictly sorted list. -/
theorem mem_triplesOf_of_sorted :
    ∀ {l : List ℕ}, l.Sorted (· < ·) → ∀ {p : ℕ × ℕ × ℕ},
      (p ∈ triplesOf l ↔
        p.1 ∈ l ∧ p.2.1 ∈ l ∧ p.2.2 ∈ l ∧ p.1 < p.2.1 ∧ p.2.1 < p.2.2) := by
  intro l
  induction l with
  | nil => intro _ p; simp [triplesOf]
  | cons x xs ih =>
    intro hs p
    rw [List.sorted_cons] at hs
    simp only [triplesOf, List.mem_append, List.mem_map]
    constructor
    · rintro (⟨q, hq, rfl⟩ | h)
      · have hq' := (mem_pairsOf_of_sorted hs.2).mp hq
        exact ⟨List.mem_cons_self x xs, List.mem_cons_of_mem x hq'.1,
          List.mem_cons_of_mem x hq'.2.1, hs.1 q.1 hq'.1, hq'.2.2⟩
      · have := (ih hs.2).mp h
        exact ⟨List.mem_cons_of_mem x this.1, List.mem_cons_of_mem x this.2.1,
          List.mem_cons_of_mem x this.2.2.1, this.2.2.2⟩
    · rintro ⟨h1, h2, h3, hlt1, hlt2⟩
      rcases List.mem_cons.mp h1 with rfl | h1'
      · left
        have h2' : p.2.1 ∈ xs := by
          rcases List.mem_cons.mp h2 with h2x | h
          · omega
          · exact h
        have h3' : p.2.2 ∈ xs := by
          rcases List.mem_cons.mp h3 with h3x | h
          · omega
          · exact h
        exact ⟨(p.2.1, p.2.2), (mem_pairsOf_of_sorted hs.2).mpr ⟨h2', h3', hlt2⟩,
          by simp⟩
      · right
        have hx1 := hs.1 p.1 h1'
        have h2' : p.2.1 ∈ xs := by
          rcases List.mem_cons.mp h2 with h2x | h
          · omega
          · exact h
        have h3' : p.2.2 ∈ xs := by
          rcases List.mem_cons.mp h3 with h3x | h
          · omega
          · exact h
        exact (ih hs.2).mpr ⟨h1', h2', h3', hlt1, hlt2⟩

/-- For a sorted duplicate-free candidate, the positional pair list covers
exactly the value pairs `a < b` of the spec. -/
theorem pairsOf_toFinset_eq_spec {c : List ℕ} (hs : c.Sorted (· ≤ ·))
    (hn : c.Nodup) : (pairsOf c).toFinset = specCandidatePairs c := by
  have hlt := sorted_lt_of_sorted_nodup hs hn
  ext p
  rw [List.mem_toFinset, mem_pairsOf_of_sorted hlt, specCandidatePairs,
    Finset.mem_filter, Finset.mem_product, List.mem_toFinset, List.mem_toFinset]
  tauto

/-- For a sorted duplicate-free candidate, the positional triple list
covers exactly the value triples `a < b < c` of the spec. -/
theorem triplesOf_toFinset_eq_spec {c : List ℕ} (hs : c.Sorted (· ≤ ·))
    (hn : c.Nodup) : (triplesOf c).toFinset = specCandidateTriples c := by
  have hlt := sorted_lt_of_sorted_nodup hs hn
  ext p
  rw [List.mem_toFinset, mem_triplesOf_of_sorted hlt, specCandidateTriples,
    Finset.mem_filter, Finset.mem_product, Finset.mem_product,
    List.mem_toFinset, List.mem_toFinset, List.mem_toFinset]
  tauto

/-- The incremental overlap penalty equals the spec's sum formulation. -/
theorem overlapPenalty_cast (c : List ℕ) :
    ∀ portfolio : List (List ℕ),
      ((overlapPenalty c portfolio : ℕ) : ℚ) = specOverlapPenalty portfolio c := by
  intro portfolio
  induction portfolio with
  | nil => simp [overlapPenalty, specOverlapPenalty]
  | cons t rest ih =>
    simp only [overlapPenalty, specOverlapPenalty, List.map_cons, List.sum_cons]
    rw [Nat.cast_add, ih]
    by_cases h : 5 ≤ overlapCount c t
    · rw [if_pos h, if_pos h, specOverlapPenalty]
      push_cast [Nat.cast_sub (by omega : 4 ≤ overlapCount c t)]
      ring
    · rw [if_neg h, if_neg h, specOverlapPenalty]
      push_cast
      ring

/-- C3.  For every sorted duplicate-free candidate, the code's score equals
the claimed closed formula
`new_pairs + 0.3 * new_triples - overlap_penalty - balance - sum_range`,
and the expected sum for 7/39 is 140. -/
theorem claim_C3_score_formula (portfolio : List (List ℕ))
    (covered_pairs : Finset (ℕ × ℕ)) (covered_triples : Finset (ℕ × ℕ × ℕ))
    (n_numbers min_num max_num : ℕ) (c : List ℕ)
    (hs : c.Sorted (· ≤ ·)) (hn : c.Nodup) :
    scoreCandidate portfolio covered_pairs covered_triples
        n_numbers min_num max_num c =
      specScore portfolio covered_pairs covered_triples
        n_numbers min_num max_num c ∧
    ((NUMBERS_PER_DRAW : ℚ) * ((MIN_NUMBER : ℚ) + (MAX_NUMBER : ℚ)) / 2 = 140) := by
  constructor
  · unfold scoreCandidate specScore
    simp only [pairsOf_toFinset_eq_spec hs hn, triplesOf_toFinset_eq_spec hs hn,
      overlapPenalty_cast]
    split_ifs <;> ring
  · norm_num [NUMBERS_PER_DRAW, MIN_NUMBER, MAX_NUMBER]

/-- Witness for C3: the two score formulations agree on a concrete
candidate against a concrete portfolio state. -/
theorem claim_C3_witness :
    scoreCandidate [[1, 2, 3, 4, 5, 6, 7]] ∅ ∅ 7 1 39 [3, 4, 5, 6, 7, 8, 9] =
      specScore [[1, 2, 3, 4, 5, 6, 7]] ∅ ∅ 7 1 39 [3, 4, 5, 6, 7, 8, 9] :=
  (claim_C3_score_formula [[1, 2, 3, 4, 5, 6, 7]] ∅ ∅ 7 1 39
    [3, 4, 5, 6, 7, 8, 9] (by decide) (by decide)).1

/-- Characterization of the candidate-selection fold: either the
accumulator survives and every candidate scored at most the accumulated
best score, or the result is the first candidate attaining the strictly
highest score above the accumulated one. -/
theorem pickBestAux_char (portfolio : List (List ℕ)) (cp : Finset (ℕ × ℕ))
    (ct : Finset (ℕ × ℕ × ℕ)) (n mn mx : ℕ) :
    ∀ (cands : List (List ℕ)) (best : Option (List ℕ)) (bs : ℚ),
      (pickBestAux portfolio cp ct n mn mx cands best bs = best ∧
        ∀ c ∈ cands, scoreCandidate portfolio cp ct n mn mx c ≤ bs) ∨
      (∃ t l₁ l₂, pickBestAux portfolio cp ct n mn mx cands best bs = some t ∧
        cands = l₁ ++ t :: l₂ ∧
        bs < scoreCandidate portfolio cp ct n mn mx t ∧
        (∀ c ∈ l₁, scoreCandidate portfolio cp ct n mn mx c <
          scoreCandidate portfolio cp ct n mn mx t) ∧
        (∀ c ∈ l₂, scoreCandidate portfolio cp ct n mn mx c ≤
          scoreCandidate portfolio cp ct n mn mx t)) := by
  intro cands
  induction cands with
  | nil =>
    intro best bs
    exact Or.inl ⟨rfl, by simp⟩
  | cons c cs ih =>
    intro best bs
    have step0 : pickBestAux portfolio cp ct n mn mx (c :: cs) best bs =
        if bs < scoreCandidate portfolio cp ct n mn mx c then
          pickBestAux portfolio cp ct n mn mx cs (some c)
            (scoreCandidate portfolio cp ct n mn mx c)
        else pickBestAux portfolio cp ct n mn mx cs best bs := rfl
    by_cases h : bs < scoreCandidate portfolio cp ct n mn mx c
    · have step : pickBestAux portfolio cp ct n mn mx (c :: cs) best bs =
          pickBestAux portfolio cp ct n mn mx cs (some c)
            (scoreCandidate portfolio cp ct n mn mx c) := by
        rw [step0, if_pos h]
      rcases ih (some c) (scoreCandidate portfolio cp ct n mn mx c) with
        ⟨heq, hall⟩ | ⟨t, l₁, l₂, heq, hsplit, hgt, hbefore, hafter⟩
      · refine Or.inr ⟨c, [], cs, ?_, by simp, h, by simp, hall⟩
        rw [step, heq]
      · refine Or.inr ⟨t, c :: l₁, l₂, ?_, by rw [hsplit]; simp, h.trans hgt, ?_, hafter⟩
        · rw [step, heq]
        · intro c' hc'
          rcases List.mem_cons.mp hc' with rfl | hc''
          · exact hgt
          · exact hbefore c' hc''
    · have step : pickBestAux portfolio cp ct n mn mx (c :: cs) best bs =
          pickBestAux portfolio cp ct n mn mx cs best bs := by
        rw [step0, if_neg h]
      rcases ih best bs with ⟨heq, hall⟩ | ⟨t, l₁, l₂, heq, hsplit, hgt, hbefore, hafter⟩
      · refine Or.inl ⟨by rw [step, heq], ?_⟩
        intro c' hc'
        rcases List.mem_cons.mp hc' with rfl | hc''
        · exact le_of_not_lt h
        · exact hall c' hc''
      · refine Or.inr ⟨t, c :: l₁, l₂, by rw [step, heq], by rw [hsplit]; simp, hgt, ?_, hafter⟩
        intro c' hc'
        rcases List.mem_cons.mp hc' with rfl | hc''
        · exact lt_of_le_of_lt (le_of_not_lt h) hgt
        · exact hbefore c' hc''

/-- C5 (amended).  The greedy step keeps the first candidate attaining the
strictly highest score provided that score exceeds the `-1` sentinel; the
uniform-random fallback is used exactly when every scored candidate stays
at or below `-1` (in particular when the sample list is empty), not only
when no candidate was scored. -/
theorem claim_C5_selection_amended (n mn mx : ℕ) :
    (∀ (portfolio : List (List ℕ)) (cp : Finset (ℕ × ℕ))
       (ct : Finset (ℕ × ℕ × ℕ)) (cands : List (List ℕ)),
      (pickBest portfolio cp ct n mn mx cands = none ↔
        ∀ c ∈ cands, scoreCandidate portfolio cp ct n mn mx c ≤ -1) ∧
      (∀ t, pickBest portfolio cp ct n mn mx cands = some t →
        ∃ l₁ l₂, cands = l₁ ++ t :: l₂ ∧
          -1 < scoreCandidate portfolio cp ct n mn mx t ∧
          (∀ c ∈ l₁, scoreCandidate portfolio cp ct n mn mx c <
            scoreCandidate portfolio cp ct n mn mx t) ∧
          (∀ c ∈ l₂, scoreCandidate portfolio cp ct n mn mx c ≤
            scoreCandidate portfolio cp ct n mn mx t))) ∧
    (∀ {σ : Type} (rng : Rng σ) (all_numbers : List ℕ) (mcs : ℕ)
       (st : OptState σ),
      (optStep rng all_numbers n mn mx mcs st).portfolio = st.portfolio ++
        [match pickBest st.portfolio st.covered_pairs st.covered_triples n mn mx
            (sampleCandidates rng all_numbers n mcs st.rs).1 with
          | some t => t
          | none => sortL (rng.sample all_numbers n
              (sampleCandidates rng all_numbers n mcs st.rs).2).1]) := by
  constructor
  · intro portfolio cp ct cands
    constructor
    · constructor
      · intro hnone
        rcases pickBestAux_char portfolio cp ct n mn mx cands none (-1) with
          ⟨_, hall⟩ | ⟨t, l₁, l₂, heq, _, _, _, _⟩
        · exact hall
        · rw [pickBest] at hnone
          rw [hnone] at heq
          exact Option.noConfusion heq
      · intro hall
        rcases pickBestAux_char portfolio cp ct n mn mx cands none (-1) with
          ⟨heq, _⟩ | ⟨t, l₁, l₂, heq, hsplit, hgt, _, _⟩
        · rw [pickBest, heq]
        · exfalso
          have : scoreCandidate portfolio cp ct n mn mx t ≤ -1 :=
            hall t (by rw [hsplit]; simp)
          linarith
    · intro t ht
      rcases pickBestAux_char portfolio cp ct n mn mx cands none (-1) with
        ⟨heq, _⟩ | ⟨t', l₁, l₂, heq, hsplit, hgt, hbefore, hafter⟩
      · rw [pickBest, heq] at ht
        exact Option.noConfusion ht
      · rw [pickBest, heq] at ht
        have := Option.some.inj ht
        subst this
        exact ⟨l₁, l₂, hsplit, hgt, hbefore, hafter⟩
  · intro σ rng all_numbers mcs st
    unfold optStep
    cases hp : pickBest st.portfolio st.covered_pairs st.covered_triples n mn mx
      (sampleCandidates rng all_numbers n mcs st.rs).1 <;> simp [hp]

/-- Score of the ticket `[1..7]` on an empty portfolio state: all 21
pairs and 35 triples are new and only the sum-range penalty fires. -/
theorem scoreCandidate_fresh_val :
    scoreCandidate [] ∅ ∅ 7 1 39 [1, 2, 3, 4, 5, 6, 7] = 57/2 := by
  simp only [scoreCandidate]
  rw [show ((pairsOf [1, 2, 3, 4, 5, 6, 7]).toFinset \ (∅ : Finset (ℕ × ℕ))).card = 21
    from by decide]
  rw [show ((triplesOf [1, 2, 3, 4, 5, 6, 7]).toFinset \ (∅ : Finset (ℕ × ℕ × ℕ))).card = 35
    from by decide]
  rw [show overlapPenalty [1, 2, 3, 4, 5, 6, 7] [] = 0 from rfl]
  rw [show (List.filter (fun n => decide (n % 2 = 1)) [1, 2, 3, 4, 5, 6, 7]).length = 4
    from by decide]
  rw [show List.sum [1, 2, 3, 4, 5, 6, 7] = 28 from by decide]
  norm_num

/-- Witness for C5 (amended): on a fresh state the unique scored
candidate wins the selection and the characterization locates it. -/
theorem claim_C5_selection_amended_witness :
    ∃ l₁ l₂, ([[1, 2, 3, 4, 5, 6, 7]] : List (List ℕ)) =
      l₁ ++ [1, 2, 3, 4, 5, 6, 7] :: l₂ ∧
      -1 < scoreCandidate [] ∅ ∅ 7 1 39 [1, 2, 3, 4, 5, 6, 7] ∧
      (∀ c ∈ l₁, scoreCandidate [] ∅ ∅ 7 1 39 c <
        scoreCandidate [] ∅ ∅ 7 1 39 [1, 2, 3, 4, 5, 6, 7]) ∧
      (∀ c ∈ l₂, scoreCandidate [] ∅ ∅ 7 1 39 c ≤
        scoreCandidate [] ∅ ∅ 7 1 39 [1, 2, 3, 4, 5, 6, 7]) :=
  ((claim_C5_selection_amended 7 1 39).1 [] ∅ ∅ [[1, 2, 3, 4, 5, 6, 7]]).2
    [1, 2, 3, 4, 5, 6, 7] (by
      simp only [pickBest, pickBestAux]
      rw [scoreCandidate_fresh_val]
      norm_num)

/-- Value of the score of the already-present ticket against the state
that contains it: every pair and triple is covered, the overlap penalty is
9 and the sum-range penalty fires. -/
theorem scoreCandidate_repeat_val :
    scoreCandidate [[1, 2, 3, 4, 5, 6, 7]] (pairsOf [1, 2, 3, 4, 5, 6, 7]).toFinset
      (triplesOf [1, 2, 3, 4, 5, 6, 7]).toFinset 7 1 39 [1, 2, 3, 4, 5, 6, 7] = -12 := by
  simp only [scoreCandidate]
  rw [show ((pairsOf [1, 2, 3, 4, 5, 6, 7]).toFinset \
    (pairsOf [1, 2, 3, 4, 5, 6, 7]).toFinset).card = 0 from by decide]
  rw [show ((triplesOf [1, 2, 3, 4, 5, 6, 7]).toFinset \
    (triplesOf [1, 2, 3, 4, 5, 6, 7]).toFinset).card = 0 from by decide]
  rw [show overlapPenalty [1, 2, 3, 4, 5, 6, 7] [[1, 2, 3, 4, 5, 6, 7]] = 9 from by decide]
  rw [show (List.filter (fun n => decide (n % 2 = 1)) [1, 2, 3, 4, 5, 6, 7]).length = 4
    from by decide]
  rw [show List.sum [1, 2, 3, 4, 5, 6, 7] = 28 from by decide]
  norm_num

/-- Counterexample to C5 as stated: with one existing ticket covering all
its pairs and triples, the single sampled candidate is scored (score
`-12`, at or below the `-1` sentinel), yet the fallback random ticket —
different from the scored candidate — is the one appended. -/
theorem claim_C5_counterexample :
    (sampleCandidates ctrRng (numberRange 1 39) 7 1 0).1 = [[1, 2, 3, 4, 5, 6, 7]] ∧
    pickBest [[1, 2, 3, 4, 5, 6, 7]] (pairsOf [1, 2, 3, 4, 5, 6, 7]).toFinset
      (triplesOf [1, 2, 3, 4, 5, 6, 7]).toFinset 7 1 39
      [[1, 2, 3, 4, 5, 6, 7]] = none ∧
    (optStep ctrRng (numberRange 1 39) 7 1 39 1
      ⟨[[1, 2, 3, 4, 5, 6, 7]], (pairsOf [1, 2, 3, 4, 5, 6, 7]).toFinset,
        (triplesOf [1, 2, 3, 4, 5, 6, 7]).toFinset, 0⟩).portfolio =
      [[1, 2, 3, 4, 5, 6, 7], [2, 3, 4, 5, 6, 7, 8]] := by
  have hpick : pickBest [[1, 2, 3, 4, 5, 6, 7]] (pairsOf [1, 2, 3, 4, 5, 6, 7]).toFinset
      (triplesOf [1, 2, 3, 4, 5, 6, 7]).toFinset 7 1 39
      [[1, 2, 3, 4, 5, 6, 7]] = none := by
    simp only [pickBest, pickBestAux]
    rw [scoreCandidate_repeat_val]
    norm_num
  refine ⟨by decide, hpick, ?_⟩
  have hsamp : sampleCandidates ctrRng (numberRange 1 39) 7 1 0 =
      ([[1, 2, 3, 4, 5, 6, 7]], 1) := by decide
  simp only [optStep, hsamp]
  rw [hpick]
  decide

/-! ### Claim C6: input validation of the portfolio builder -/

theorem numberRange_nodup (lo hi : ℕ) : (numberRange lo hi).Nodup :=
  List.nodup_range' _ _

theorem mem_numberRange {lo hi x : ℕ} : x ∈ numberRange lo hi ↔ lo ≤ x ∧ x ≤ hi := by
  rw [numberRange, List.mem_range'_1]
  omega

theorem numberRange_length (lo hi : ℕ) : (numberRange lo hi).length = hi + 1 - lo :=
  List.length_range' _ _ _

/-- C6 (amended).  The greedy portfolio builder performs no explicit input
validation: `n_tickets = 0` returns an empty portfolio normally (no
configuration error); a feasible draw size never raises; an infeasible
draw size (`draw_size` exceeding the pool) surfaces as the sampling error
of the first greedy step — it is raised only when at least one ticket is
requested, not before sampling. -/
theorem claim_C6_validation_amended {σ : Type} (rng : Rng σ) (s : σ)
    (n_tickets n_numbers min_num max_num : ℕ) (monte_carlo_samples : Option ℕ) :
    (n_tickets = 0 →
      ∃ stats, optimize_portfolio_coverage rng s n_tickets n_numbers min_num max_num
        monte_carlo_samples = .ok ([], stats)) ∧
    (n_numbers ≤ max_num + 1 - min_num →
      ∃ r, optimize_portfolio_coverage rng s n_tickets n_numbers min_num max_num
        monte_carlo_samples = .ok r) ∧
    (0 < n_tickets → max_num + 1 - min_num < n_numbers →
      ∃ e, optimize_portfolio_coverage rng s n_tickets n_numbers min_num max_num
        monte_carlo_samples = .error e) := by
  refine ⟨?_, ?_, ?_⟩
  · rintro rfl
    refine ⟨calcCoverageStats [] ∅ ∅ (totalPossiblePairs min_num max_num) max_num, ?_⟩
    unfold optimize_portfolio_coverage
    rw [if_pos (Or.inl rfl)]
    rfl
  · intro h
    unfold optimize_portfolio_coverage
    rw [if_pos (Or.inr (by rw [numberRange_length]; exact h))]
    exact ⟨_, rfl⟩
  · intro hn hgt
    unfold optimize_portfolio_coverage
    rw [if_neg (by push_neg; rw [numberRange_length]; exact ⟨by omega, by omega⟩)]
    exact ⟨_, rfl⟩

/-- Witness for C6 (amended): a zero-ticket request returns normally, a
7-of-39 request returns normally, and a 50-of-39 request errors. -/
theorem claim_C6_validation_amended_witness :
    (∃ stats, optimize_portfolio_coverage detRng () 0 7 1 39 (some 5) = .ok ([], stats)) ∧
    (∃ r, optimize_portfolio_coverage detRng () 1 7 1 39 (some 0) = .ok r) ∧
    (∃ e, optimize_portfolio_coverage detRng () 1 50 1 39 (some 0) = .error e) :=
  ⟨(claim_C6_validation_amended detRng () 0 7 1 39 (some 5)).1 rfl,
   (claim_C6_validation_amended detRng () 1 7 1 39 (some 0)).2.1 (by decide),
   (claim_C6_validation_amended detRng () 1 50 1 39 (some 0)).2.2 (by decide) (by decide)⟩

/-- Counterexample to C6 as stated: requesting zero tickets (an invalid
`n_tickets < 1` configuration per the claim) does not fail with a
configuration error — the call returns normally with an empty portfolio. -/
theorem claim_C6_counterexample :
    optimize_portfolio_coverage detRng () 0 7 1 39 (some 5) =
      .ok ([], calcCoverageStats [] ∅ ∅ (totalPossiblePairs 1 39) 39) := by
  unfold optimize_portfolio_coverage
  rw [if_pos (Or.inl rfl)]
  rfl

/-! ### Claim C7: validity of generated tickets -/

/-- The spec's ticket invariant: `draw_size` numbers, sorted ascending,
all distinct, all within the pool. -/
def ValidTicket (n_per lo hi : ℕ) (t : List ℕ) : Prop :=
  t.length = n_per ∧ t.Sorted (· ≤ ·) ∧ t.Nodup ∧ ∀ x ∈ t, lo ≤ x ∧ x ≤ hi

/-- A sorted random sample from the pool is a valid ticket. -/
theorem sortL_sample_valid {σ : Type} {rng : Rng σ} (hv : rng.Valid)
    (lo hi n : ℕ) (s : σ) (hn : n ≤ (numberRange lo hi).length) :
    ValidTicket n lo hi (sortL (rng.sample (numberRange lo hi) n s).1) := by
  refine ⟨?_, sortL_sorted _, ?_, ?_⟩
  · rw [sortL_length]
    exact hv.sample_len _ _ _ hn
  · obtain ⟨l, hperm, hsub⟩ := hv.sample_subperm (numberRange lo hi) n s
    exact sortL_nodup (hperm.nodup_iff.mp (hsub.nodup (numberRange_nodup lo hi)))
  · intro x hx
    have := (hv.sample_subperm (numberRange lo hi) n s).subset (mem_sortL.mp hx)
    exact mem_numberRange.mp this

/-- All sampled candidates of a greedy step are valid tickets. -/
theorem sampleCandidates_valid {σ : Type} {rng : Rng σ} (hv : rng.Valid)
    (lo hi n : ℕ) (hn : n ≤ (numberRange lo hi).length) :
    ∀ (k : ℕ) (s : σ) (c : List ℕ),
      c ∈ (sampleCandidates rng (numberRange lo hi) n k s).1 →
      ValidTicket n lo hi c := by
  intro k
  induction k with
  | zero => intro s c hc; simp [sampleCandidates] at hc
  | succ k ih =>
    intro s c hc
    simp only [sampleCandidates, List.mem_cons] at hc
    rcases hc with rfl | hc
    · exact sortL_sample_valid hv lo hi n s hn
    · exact ih _ _ hc

/-- A kept candidate comes from the candidate list. -/
theorem pickBest_mem {portfolio : List (List ℕ)} {cp : Finset (ℕ × ℕ)}
    {ct : Finset (ℕ × ℕ × ℕ)} {n mn mx : ℕ} {cands : List (List ℕ)} {t : List ℕ}
    (h : pickBest portfolio cp ct n mn mx cands = some t) : t ∈ cands := by
  rcases pickBestAux_char portfolio cp ct n mn mx cands none (-1) with
    ⟨heq, _⟩ | ⟨t', l₁, l₂, heq, hsplit, _, _, _⟩
  · rw [pickBest, heq] at h
    exact Option.noConfusion h
  · rw [pickBest, heq] at h
    have := Option.some.inj h
    subst this
    rw [hsplit]
    simp

/-- One greedy step appends exactly one valid ticket. -/
theorem optStep_portfolio {σ : Type} {rng : Rng σ} (hv : rng.Valid)
    (lo hi n mcs : ℕ) (hn : n ≤ (numberRange lo hi).length) (st : OptState σ) :
    ∃ t, (optStep rng (numberRange lo hi) n lo hi mcs st).portfolio =
      st.portfolio ++ [t] ∧
      (optStep rng (numberRange lo hi) n lo hi mcs st).covered_pairs =
        st.covered_pairs ∪ (pairsOf t).toFinset ∧
      ValidTicket n lo hi t := by
  unfold optStep
  cases hp : pickBest st.portfolio st.covered_pairs st.covered_triples n lo hi
    (sampleCandidates rng (numberRange lo hi) n mcs st.rs).1 with
  | some t =>
    refine ⟨t, by simp [hp], by simp [hp], ?_⟩
    exact sampleCandidates_valid hv lo hi n hn mcs st.rs t (pickBest_mem hp)
  | none =>
    exact ⟨sortL (rng.sample (numberRange lo hi) n
        (sampleCandidates rng (numberRange lo hi) n mcs st.rs).2).1,
      by simp [hp], by simp [hp],
      sortL_sample_valid hv lo hi n
        (sampleCandidates rng (numberRange lo hi) n mcs st.rs).2 hn⟩

/-- Along the greedy loop the portfolio grows by one valid ticket per
step. -/
theorem optLoop_portfolio {σ : Type} {rng : Rng σ} (hv : rng.Valid)
    (lo hi n mcs : ℕ) (hn : n ≤ (numberRange lo hi).length) :
    ∀ (k : ℕ) (st : OptState σ),
      ((optLoop rng (numberRange lo hi) n lo hi mcs k st).portfolio.length =
        st.portfolio.length + k) ∧
      (∀ t ∈ (optLoop rng (numberRange lo hi) n lo hi mcs k st).portfolio,
        t ∈ st.portfolio ∨ ValidTicket n lo hi t) := by
  intro k
  induction k with
  | zero =>
    intro st
    refine ⟨by simp [optLoop], ?_⟩
    intro t ht
    exact Or.inl (by simpa [optLoop] using ht)
  | succ k ih =>
    intro st
    obtain ⟨t, hstep, hcovstep, hvalid⟩ := optStep_portfolio hv lo hi n mcs hn st
    have := ih (optStep rng (numberRange lo hi) n lo hi mcs st)
    simp only [optLoop]
    constructor
    · rw [this.1, hstep]
      simp only [List.length_append, List.length_cons, List.length_nil]
      omega
    · intro u hu
      rcases this.2 u hu with hmem | hval
      · rw [hstep] at hmem
        rcases List.mem_append.mp hmem with h | h
        · exact Or.inl h
        · rcases List.mem_singleton.mp h with rfl
          exact Or.inr hvalid
      · exact Or.inr hval

/-- The padding loop preserves sortedness, distinctness and range bounds. -/
theorem padCandidate_good {σ : Type} {rng : Rng σ} (hv : rng.Valid) (npt : ℕ) :
    ∀ (fuel : ℕ) (cand : List ℕ) (s : σ),
      cand.Sorted (· ≤ ·) → cand.Nodup →
      (∀ x ∈ cand, MIN_NUMBER ≤ x ∧ x ≤ MAX_NUMBER) →
      ((padCandidate rng npt fuel cand s).1.Sorted (· ≤ ·) ∧
        (padCandidate rng npt fuel cand s).1.Nodup ∧
        ∀ x ∈ (padCandidate rng npt fuel cand s).1,
          MIN_NUMBER ≤ x ∧ x ≤ MAX_NUMBER) := by
  intro fuel
  induction fuel with
  | zero => intro cand s hs hn hb; exact ⟨hs, hn, hb⟩
  | succ fuel ih =>
    intro cand s hs hn hb
    simp only [padCandidate]
    by_cases hlen : cand.length < npt
    · rw [if_pos hlen]
      by_cases hrem : (numberRange MIN_NUMBER MAX_NUMBER).filter (fun n => n ∉ cand) = []
      · rw [if_pos hrem]
        exact ⟨hs, hn, hb⟩
      · rw [if_neg hrem]
        have hx := hv.chooseOne_mem _ s hrem
        rw [List.mem_filter] at hx
        have hxr := mem_numberRange.mp hx.1
        have hxc : (rng.chooseOne
            ((numberRange MIN_NUMBER MAX_NUMBER).filter (fun n => n ∉ cand)) s).1 ∉ cand := by
          simpa using hx.2
        refine ih _ _ (sortL_sorted _) ?_ ?_
        · refine sortL_nodup ?_
          rw [List.nodup_append]
          refine ⟨hn, List.nodup_singleton _, ?_⟩
          intro a ha hax
          rw [List.mem_singleton] at hax
          subst hax
          exact hxc ha
        · intro x hxm
          rw [mem_sortL, List.mem_append, List.mem_singleton] at hxm
          rcases hxm with h | rfl
          · exact hb x h
          · exact hxr
    · rw [if_neg hlen]
      exact ⟨hs, hn, hb⟩

/-- Every candidate assembled by the wheel builder is sorted, duplicate
free and within the pool. -/
theorem makeCandidate_good {σ : Type} {rng : Rng σ} (hv : rng.Valid)
    (keys : List ℕ) (gm npt : ℕ) (hknd : keys.Nodup)
    (hk : ∀ x ∈ keys, MIN_NUMBER ≤ x ∧ x ≤ MAX_NUMBER) (s : σ) :
    ((makeCandidate rng keys
        ((numberRange MIN_NUMBER MAX_NUMBER).filter (fun n => n ∉ keys))
        gm npt s).1.Sorted (· ≤ ·) ∧
      (makeCandidate rng keys
        ((numberRange MIN_NUMBER MAX_NUMBER).filter (fun n => n ∉ keys))
        gm npt s).1.Nodup ∧
      ∀ x ∈ (makeCandidate rng keys
        ((numberRange MIN_NUMBER MAX_NUMBER).filter (fun n => n ∉ keys))
        gm npt s).1, MIN_NUMBER ≤ x ∧ x ≤ MAX_NUMBER) := by
  simp only [makeCandidate]
  set other := (numberRange MIN_NUMBER MAX_NUMBER).filter (fun n => n ∉ keys) with hother
  set r0 := rng.randint (min gm keys.length) (min keys.length npt) s with hr0
  set r1 := rng.sample keys r0.1 r0.2 with hr1
  have hck_sub : ∀ x ∈ sortL r1.1, x ∈ keys := by
    intro x hx
    obtain ⟨l, hperm, hsub⟩ := hv.sample_subperm keys r0.1 r0.2
    exact hsub.subset (hperm.mem_iff.mpr (mem_sortL.mp hx))
  have hck_nodup : (sortL r1.1).Nodup := by
    obtain ⟨l, hperm, hsub⟩ := hv.sample_subperm keys r0.1 r0.2
    exact sortL_nodup (hperm.nodup_iff.mp (hsub.nodup hknd))
  by_cases hcase : 0 < npt - r0.1 ∧ other ≠ []
  · rw [if_pos hcase]
    set rf := rng.sample other (min (npt - r0.1) other.length) r1.2 with hrf
    have hcf_sub : ∀ x ∈ sortL rf.1, x ∈ other := by
      intro x hx
      obtain ⟨l, hperm, hsub⟩ := hv.sample_subperm other (min (npt - r0.1) other.length) r1.2
      exact hsub.subset (hperm.mem_iff.mpr (mem_sortL.mp hx))
    have hcf_nodup : (sortL rf.1).Nodup := by
      obtain ⟨l, hperm, hsub⟩ := hv.sample_subperm other (min (npt - r0.1) other.length) r1.2
      refine sortL_nodup (hperm.nodup_iff.mp (hsub.nodup ?_))
      exact List.Nodup.filter _ (numberRange_nodup _ _)
    refine padCandidate_good hv npt npt _ _ (sortL_sorted _) ?_ ?_
    · refine sortL_nodup ?_
      rw [List.nodup_append]
      refine ⟨hck_nodup, hcf_nodup, ?_⟩
      intro a ha hac
      have hao : a ∈ other := hcf_sub a hac
      rw [hother, List.mem_filter] at hao
      have : a ∉ keys := by simpa using hao.2
      exact this (hck_sub a ha)
    · intro x hx
      rw [mem_sortL, List.mem_append] at hx
      rcases hx with h | h
      · exact hk x (hck_sub x h)
      · have hxo := hcf_sub x h
        rw [hother, List.mem_filter] at hxo
        exact mem_numberRange.mp hxo.1
  · rw [if_neg hcase]
    refine padCandidate_good hv npt npt _ _ (sortL_sorted _) hck_nodup ?_
    intro x hx
    exact hk x (hck_sub x hx)

/-! ### Bookkeeping of the abbreviated-wheel greedy loop -/

/-- A hit-subset index is still uncovered by a ticket set when every
ticket matches it in fewer than `guarantee_match` numbers. -/
def uncoveredBy (hit_subsets : List (List ℕ)) (guarantee_match : ℕ)
    (tickets : List (List ℕ)) (idx : ℕ) : Bool :=
  tickets.all (fun t => decide (overlapCount (hit_subsets.getD idx []) t < guarantee_match))

/-- The candidate loop's accumulator always stores exactly the uncovered
indices its stored candidate newly covers. -/
theorem wheelCandLoop_newly {σ : Type} (rng : Rng σ) (keys other : List ℕ)
    (gm npt : ℕ) (hs : List (List ℕ)) (uncovered : Finset ℕ) :
    ∀ (k : ℕ) (best : Option (List ℕ)) (bestN : Finset ℕ) (s : σ),
      (best = none → bestN = ∅) →
      (∀ t, best = some t → bestN = newlyCovered hs gm uncovered t) →
      (((wheelCandLoop rng keys other gm npt hs uncovered k best bestN s).1 = none →
        (wheelCandLoop rng keys other gm npt hs uncovered k best bestN s).2.1 = ∅) ∧
      (∀ t, (wheelCandLoop rng keys other gm npt hs uncovered k best bestN s).1 = some t →
        (wheelCandLoop rng keys other gm npt hs uncovered k best bestN s).2.1 =
          newlyCovered hs gm uncovered t)) := by
  intro k
  induction k with
  | zero => intro best bestN s h1 h2; exact ⟨h1, h2⟩
  | succ k ih =>
    intro best bestN s h1 h2
    simp only [wheelCandLoop]
    by_cases hlen : (makeCandidate rng keys other gm npt s).1.length = npt
    · rw [if_pos hlen]
      by_cases hcard : bestN.card < (newlyCovered hs gm uncovered
          (makeCandidate rng keys other gm npt s).1).card
      · rw [if_pos hcard]
        refine ih _ _ _ (fun h => Option.noConfusion h) ?_
        intro t ht
        rw [Option.some.inj ht]
      · rw [if_neg hcard]
        exact ih _ _ _ h1 h2
    · rw [if_neg hlen]
      exact ih _ _ _ h1 h2

/-- The fallback returns either nothing or a ticket together with exactly
the uncovered indices it newly covers. -/
theorem wheelFallbackGo_newly {σ : Type} (rng : Rng σ) (keys other : List ℕ)
    (gm npt : ℕ) (hs : List (List ℕ)) (uncovered : Finset ℕ) :
    ∀ (idxs : List ℕ) (s : σ),
      (((wheelFallbackGo rng keys other gm npt hs uncovered idxs s).1 = none →
        (wheelFallbackGo rng keys other gm npt hs uncovered idxs s).2.1 = ∅) ∧
      (∀ t, (wheelFallbackGo rng keys other gm npt hs uncovered idxs s).1 = some t →
        (wheelFallbackGo rng keys other gm npt hs uncovered idxs s).2.1 =
          newlyCovered hs gm uncovered t)) := by
  intro idxs
  induction idxs with
  | nil => intro s; exact ⟨fun _ => rfl, fun t ht => Option.noConfusion ht⟩
  | cons idx rest ih =>
    intro s
    simp only [wheelFallbackGo]
    split_ifs with hlen
    · refine ⟨?_, ?_⟩
      · intro h
        simp at h
      · intro t ht
        rw [← Option.some.inj ht]
    · exact ih _

/-- One wheel iteration either leaves the state unchanged (degenerate
search) or appends one ticket and removes exactly the uncovered subsets
that ticket covers. -/
theorem wheelStep_cases {σ : Type} (rng : Rng σ) (keys other : List ℕ)
    (gm npt : ℕ) (hs : List (List ℕ)) (nc : ℕ) (st : WheelState σ) :
    ((wheelStep rng keys other gm npt hs nc st).tickets = st.tickets ∧
      (wheelStep rng keys other gm npt hs nc st).uncovered = st.uncovered) ∨
    (∃ t, (wheelStep rng keys other gm npt hs nc st).tickets = st.tickets ++ [t] ∧
      (wheelStep rng keys other gm npt hs nc st).uncovered =
        st.uncovered \ newlyCovered hs gm st.uncovered t) := by
  have hr1 := wheelCandLoop_newly rng keys other gm npt hs st.uncovered nc none ∅ st.rs
    (fun _ => rfl) (fun t ht => Option.noConfusion ht)
  set r1 := wheelCandLoop rng keys other gm npt hs st.uncovered nc none ∅ st.rs with hr1def
  by_cases hcond : r1.1 = none ∨ r1.2.1 = ∅
  · have hF := wheelFallbackGo_newly rng keys other gm npt hs st.uncovered
      (st.uncovered.sort (· ≤ ·)) r1.2.2
    set rF := wheelFallbackGo rng keys other gm npt hs st.uncovered
      (st.uncovered.sort (· ≤ ·)) r1.2.2 with hrFdef
    have hstep : wheelStep rng keys other gm npt hs nc st =
        match rF.1 with
        | some t => ⟨st.tickets ++ [t], st.uncovered \ rF.2.1, rF.2.2⟩
        | none => ⟨st.tickets, st.uncovered, rF.2.2⟩ := by
      simp only [wheelStep, wheelFallback]
      rw [← hr1def, if_pos hcond, ← hrFdef]
    cases hsome : rF.1 with
    | none =>
      left
      rw [hstep, hsome]
      exact ⟨rfl, rfl⟩
    | some t =>
      right
      refine ⟨t, ?_, ?_⟩
      · rw [hstep, hsome]
      · rw [hstep, hsome, hF.2 t hsome]
  · have hstep : wheelStep rng keys other gm npt hs nc st =
        match r1.1 with
        | some t => ⟨st.tickets ++ [t], st.uncovered \ r1.2.1, r1.2.2⟩
        | none => ⟨st.tickets, st.uncovered, r1.2.2⟩ := by
      simp only [wheelStep]
      rw [← hr1def, if_neg hcond]
    cases hsome : r1.1 with
    | none => exact absurd (Or.inl hsome) hcond
    | some t =>
      right
      refine ⟨t, ?_, ?_⟩
      · rw [hstep, hsome]
      · rw [hstep, hsome, hr1.2 t hsome]

/-- A defaulted list lookup is the default or a member. -/
theorem getD_mem_or_default {α : Type} (l : List α) (i : ℕ) (d : α) :
    l.getD i d = d ∨ l.getD i d ∈ l := by
  by_cases h : i < l.length
  · right
    rw [List.getD_eq_getElem l d h]
    exact List.getElem_mem h
  · left
    exact List.getD_eq_default l d (le_of_not_lt h)

/-- Any candidate kept by the candidate loop is a valid ticket. -/
theorem wheelCandLoop_valid {σ : Type} {rng : Rng σ} (hv : rng.Valid)
    (keys : List ℕ) (gm npt : ℕ) (hknd : keys.Nodup)
    (hk : ∀ x ∈ keys, MIN_NUMBER ≤ x ∧ x ≤ MAX_NUMBER)
    (hs : List (List ℕ)) (uncovered : Finset ℕ) :
    ∀ (k : ℕ) (best : Option (List ℕ)) (bestN : Finset ℕ) (s : σ),
      (∀ t, best = some t → ValidTicket npt MIN_NUMBER MAX_NUMBER t) →
      ∀ t, (wheelCandLoop rng keys
          ((numberRange MIN_NUMBER MAX_NUMBER).filter (fun n => n ∉ keys))
          gm npt hs uncovered k best bestN s).1 = some t →
        ValidTicket npt MIN_NUMBER MAX_NUMBER t := by
  intro k
  induction k with
  | zero => intro best bestN s hbest t ht; exact hbest t ht
  | succ k ih =>
    intro best bestN s hbest t ht
    rw [wheelCandLoop] at ht
    by_cases hlen : (makeCandidate rng keys
        ((numberRange MIN_NUMBER MAX_NUMBER).filter (fun n => n ∉ keys))
        gm npt s).1.length = npt
    · rw [if_pos hlen] at ht
      by_cases hcard : bestN.card < (newlyCovered hs gm uncovered
          (makeCandidate rng keys
            ((numberRange MIN_NUMBER MAX_NUMBER).filter (fun n => n ∉ keys))
            gm npt s).1).card
      · rw [if_pos hcard] at ht
        refine ih _ _ _ ?_ t ht
        intro u hu
        rw [← Option.some.inj hu]
        obtain ⟨hsorted, hnodup, hbounds⟩ := makeCandidate_good hv keys gm npt hknd hk s
        exact ⟨hlen, hsorted, hnodup, hbounds⟩
      · rw [if_neg hcard] at ht
        exact ih _ _ _ hbest t ht
    · rw [if_neg hlen] at ht
      exact ih _ _ _ hbest t ht

/-- Any ticket produced by the fallback is a valid ticket. -/
theorem wheelFallbackGo_valid {σ : Type} {rng : Rng σ} (hv : rng.Valid)
    (keys : List ℕ) (gm npt : ℕ) (hknd : keys.Nodup)
    (hk : ∀ x ∈ keys, MIN_NUMBER ≤ x ∧ x ≤ MAX_NUMBER)
    (hs : List (List ℕ)) (hsubs : ∀ l ∈ hs, l.Sublist keys)
    (uncovered : Finset ℕ) :
    ∀ (idxs : List ℕ) (s : σ) (t : List ℕ),
      (wheelFallbackGo rng keys
        ((numberRange MIN_NUMBER MAX_NUMBER).filter (fun n => n ∉ keys))
        gm npt hs uncovered idxs s).1 = some t →
      ValidTicket npt MIN_NUMBER MAX_NUMBER t := by
  intro idxs
  induction idxs with
  | nil => intro s t ht; exact Option.noConfusion ht
  | cons idx rest ih =>
    intro s t ht
    rw [wheelFallbackGo] at ht
    set other := (numberRange MIN_NUMBER MAX_NUMBER).filter (fun n => n ∉ keys) with hother
    set subset := hs.getD idx [] with hsubset
    have hsubsub : subset.Sublist keys := by
      rcases getD_mem_or_default hs idx [] with h | h
      · rw [hsubset, h]
        exact List.nil_sublist keys
      · exact hsubs _ h
    have hsubnd : subset.Nodup := hsubsub.nodup hknd
    set available := (keys ++ other).filter (fun n => n ∉ subset) with havail
    have havnd : available.Nodup := by
      refine List.Nodup.filter _ ?_
      rw [List.nodup_append]
      refine ⟨hknd, List.Nodup.filter _ (numberRange_nodup _ _), ?_⟩
      intro a ha hao
      rw [hother, List.mem_filter] at hao
      have hnk : a ∉ keys := by simpa using hao.2
      exact hnk ha
    set shuffled := (rng.shuffle available s).1 with hshuf
    have hperm : List.Perm shuffled available := hv.shuffle_perm _ _
    set base := (subset ++ shuffled.take (npt - subset.length)).take npt with hbase
    have hbasend : base.Nodup := by
      refine List.Sublist.nodup (List.take_sublist _ _) ?_
      rw [List.nodup_append]
      refine ⟨hsubnd, (List.take_sublist _ _).nodup (hperm.nodup_iff.mpr havnd), ?_⟩
      intro a ha hat
      have hav : a ∈ available := hperm.subset ((List.take_sublist _ _).subset hat)
      rw [havail, List.mem_filter] at hav
      have hns : a ∉ subset := by simpa using hav.2
      exact hns ha
    have hbaseb : ∀ x ∈ base, MIN_NUMBER ≤ x ∧ x ≤ MAX_NUMBER := by
      intro x hx
      have hx' := (List.take_sublist _ _).subset hx
      rw [List.mem_append] at hx'
      rcases hx' with h | h
      · exact hk x (hsubsub.subset h)
      · have : x ∈ available := hperm.subset ((List.take_sublist _ _).subset h)
        rw [havail, List.mem_filter, List.mem_append] at this
        rcases this.1 with h' | h'
        · exact hk x h'
        · rw [hother, List.mem_filter] at h'
          exact mem_numberRange.mp h'.1
    by_cases hlen : (sortL base).length = npt
    · rw [if_pos hlen] at ht
      have hteq : sortL base = t := Option.some.inj ht
      rw [← hteq]
      exact ⟨hlen, sortL_sorted _, sortL_nodup hbasend,
        fun x hx => hbaseb x (mem_sortL.mp hx)⟩
    · rw [if_neg hlen] at ht
      exact ih _ t ht

/-- Tickets added by one wheel iteration are valid. -/
theorem wheelStep_valid {σ : Type} {rng : Rng σ} (hv : rng.Valid)
    (keys : List ℕ) (gm npt : ℕ) (hknd : keys.Nodup)
    (hk : ∀ x ∈ keys, MIN_NUMBER ≤ x ∧ x ≤ MAX_NUMBER)
    (hs : List (List ℕ)) (hsubs : ∀ l ∈ hs, l.Sublist keys)
    (nc : ℕ) (st : WheelState σ) :
    ∀ t ∈ (wheelStep rng keys
        ((numberRange MIN_NUMBER MAX_NUMBER).filter (fun n => n ∉ keys))
        gm npt hs nc st).tickets,
      t ∈ st.tickets ∨ ValidTicket npt MIN_NUMBER MAX_NUMBER t := by
  set other := (numberRange MIN_NUMBER MAX_NUMBER).filter (fun n => n ∉ keys) with hother
  set r1 := wheelCandLoop rng keys other gm npt hs st.uncovered nc none ∅ st.rs with hr1def
  by_cases hcond : r1.1 = none ∨ r1.2.1 = ∅
  · set rF := wheelFallbackGo rng keys other gm npt hs st.uncovered
      (st.uncovered.sort (· ≤ ·)) r1.2.2 with hrFdef
    have hstep : wheelStep rng keys other gm npt hs nc st =
        match rF.1 with
        | some t => ⟨st.tickets ++ [t], st.uncovered \ rF.2.1, rF.2.2⟩
        | none => ⟨st.tickets, st.uncovered, rF.2.2⟩ := by
      simp only [wheelStep, wheelFallback]
      rw [← hr1def, if_pos hcond, ← hrFdef]
    cases hsome : rF.1 with
    | none =>
      rw [hstep, hsome]
      intro t ht
      exact Or.inl ht
    | some u =>
      rw [hstep, hsome]
      intro t ht
      rcases List.mem_append.mp ht with h | h
      · exact Or.inl h
      · rcases List.mem_singleton.mp h with rfl
        exact Or.inr (wheelFallbackGo_valid hv keys gm npt hknd hk hs hsubs
          st.uncovered _ _ t (by rw [← hrFdef, hsome]))
  · have hstep : wheelStep rng keys other gm npt hs nc st =
        match r1.1 with
        | some t => ⟨st.tickets ++ [t], st.uncovered \ r1.2.1, r1.2.2⟩
        | none => ⟨st.tickets, st.uncovered, r1.2.2⟩ := by
      simp only [wheelStep, wheelFallback]
      rw [← hr1def, if_neg hcond]
    cases hsome : r1.1 with
    | none => exact absurd (Or.inl hsome) hcond
    | some u =>
      rw [hstep, hsome]
      intro t ht
      rcases List.mem_append.mp ht with h | h
      · exact Or.inl h
      · rcases List.mem_singleton.mp h with rfl
        exact Or.inr (wheelCandLoop_valid hv keys gm npt hknd hk hs st.uncovered
          nc none ∅ st.rs (fun u hu => Option.noConfusion hu) t
          (by rw [← hr1def, hsome]))

/-- Appending a ticket refines the uncovered predicate pointwise. -/
theorem uncoveredBy_append (hs : List (List ℕ)) (gm : ℕ)
    (tickets : List (List ℕ)) (t : List ℕ) (idx : ℕ) :
    uncoveredBy hs gm (tickets ++ [t]) idx =
      (uncoveredBy hs gm tickets idx &&
        decide (overlapCount (hs.getD idx []) t < gm)) := by
  simp [uncoveredBy, List.all_append]

/-- One wheel iteration preserves the bookkeeping invariant: the
uncovered set is exactly the set of subset indices not covered by any
ticket so far. -/
theorem wheelStep_inv {σ : Type} (rng : Rng σ) (keys other : List ℕ)
    (gm npt : ℕ) (hs : List (List ℕ)) (nc : ℕ) (st : WheelState σ)
    (hI : st.uncovered = (Finset.range hs.length).filter
      (fun idx => uncoveredBy hs gm st.tickets idx = true)) :
    (wheelStep rng keys other gm npt hs nc st).uncovered =
      (Finset.range hs.length).filter
        (fun idx => uncoveredBy hs gm
          (wheelStep rng keys other gm npt hs nc st).tickets idx = true) := by
  rcases wheelStep_cases rng keys other gm npt hs nc st with
    ⟨ht, hu⟩ | ⟨t, ht, hu⟩
  · rw [hu, ht, hI]
  · rw [hu, ht, hI]
    ext idx
    simp only [Finset.mem_sdiff, Finset.mem_filter, Finset.mem_range,
      newlyCovered, uncoveredBy_append, Bool.and_eq_true, decide_eq_true_eq, hI]
    constructor
    · rintro ⟨⟨hlt, hunc⟩, hnot⟩
      refine ⟨hlt, hunc, ?_⟩
      by_contra hge
      exact hnot ⟨⟨hlt, hunc⟩, by omega⟩
    · rintro ⟨hlt, hunc, hless⟩
      exact ⟨⟨hlt, hunc⟩, fun hmem => by omega⟩

/-- The wheel loop maintains the bookkeeping invariant. -/
theorem wheelLoop_inv {σ : Type} (rng : Rng σ) (keys other : List ℕ)
    (gm npt : ℕ) (hs : List (List ℕ)) (nc mt : ℕ) :
    ∀ (fuel : ℕ) (st : WheelState σ),
      st.uncovered = (Finset.range hs.length).filter
        (fun idx => uncoveredBy hs gm st.tickets idx = true) →
      (wheelLoop rng keys other gm npt hs nc mt fuel st).uncovered =
        (Finset.range hs.length).filter
          (fun idx => uncoveredBy hs gm
            (wheelLoop rng keys other gm npt hs nc mt fuel st).tickets idx = true) := by
  intro fuel
  induction fuel with
  | zero => intro st hI; exact hI
  | succ fuel ih =>
    intro st hI
    rw [wheelLoop]
    by_cases hcond : st.uncovered ≠ ∅ ∧ st.tickets.length < mt
    · rw [if_pos hcond]
      exact ih _ (wheelStep_inv rng keys other gm npt hs nc st hI)
    · rw [if_neg hcond]
      exact hI

/-- The wheel loop only appends valid tickets. -/
theorem wheelLoop_valid {σ : Type} {rng : Rng σ} (hv : rng.Valid)
    (keys : List ℕ) (gm npt : ℕ) (hknd : keys.Nodup)
    (hk : ∀ x ∈ keys, MIN_NUMBER ≤ x ∧ x ≤ MAX_NUMBER)
    (hs : List (List ℕ)) (hsubs : ∀ l ∈ hs, l.Sublist keys) (nc mt : ℕ) :
    ∀ (fuel : ℕ) (st : WheelState σ),
      (∀ t ∈ st.tickets, ValidTicket npt MIN_NUMBER MAX_NUMBER t) →
      ∀ t ∈ (wheelLoop rng keys
          ((numberRange MIN_NUMBER MAX_NUMBER).filter (fun n => n ∉ keys))
          gm npt hs nc mt fuel st).tickets,
        ValidTicket npt MIN_NUMBER MAX_NUMBER t := by
  intro fuel
  induction fuel with
  | zero => intro st hvalid t ht; exact hvalid t ht
  | succ fuel ih =>
    intro st hvalid t ht
    rw [wheelLoop] at ht
    by_cases hcond : st.uncovered ≠ ∅ ∧ st.tickets.length < mt
    · rw [if_pos hcond] at ht
      refine ih _ ?_ t ht
      intro u hu
      rcases wheelStep_valid hv keys gm npt hknd hk hs hsubs nc st u hu with h | h
      · exact hvalid u h
      · exact h
    · rw [if_neg hcond] at ht
      exact hvalid t ht

/-- The final loop state of the abbreviated-wheel builder. -/
def wheelFinal {σ : Type} (rng : Rng σ) (s : σ) (keys : List ℕ)
    (g m npt mt : ℕ) : WheelState σ :=
  let key' := sortL keys
  let hs := combinations g key'
  wheelLoop rng key'
    ((numberRange MIN_NUMBER MAX_NUMBER).filter (fun n => n ∉ key'))
    m npt hs (min 3000 (max 1000 (hs.length * 10))) mt mt
    ⟨[], Finset.range hs.length, s⟩

/-- Structure of a successful abbreviated-wheel run: the preconditions
hold and every report field is determined by the final loop state. -/
theorem gen_wheel_ok_elim {σ : Type} {rng : Rng σ} {s : σ} {keys : List ℕ}
    {g m npt mt : ℕ} {tickets : List (List ℕ)} {rep : WheelGuarantee}
    (h : generate_abbreviated_wheel rng s keys g m npt mt = .ok (tickets, rep)) :
    g ≤ keys.length ∧ m ≤ g ∧ m ≤ npt ∧
    tickets = (wheelFinal rng s keys g m npt mt).tickets ∧
    rep.subsets_to_cover = (combinations g (sortL keys)).length ∧
    rep.subsets_covered = (combinations g (sortL keys)).length -
      (wheelFinal rng s keys g m npt mt).uncovered.card ∧
    rep.uncovered_remaining = (wheelFinal rng s keys g m npt mt).uncovered.card ∧
    rep.verified = verify_wheel_guarantee (wheelFinal rng s keys g m npt mt).tickets
      (sortL keys) g m ∧
    rep.n_tickets = (wheelFinal rng s keys g m npt mt).tickets.length ∧
    rep.coverage_pct = (if 0 < (combinations g (sortL keys)).length then
      (((combinations g (sortL keys)).length -
          (wheelFinal rng s keys g m npt mt).uncovered.card : ℕ) : ℚ) /
        (((combinations g (sortL keys)).length : ℕ) : ℚ) * 100
      else 100) := by
  unfold generate_abbreviated_wheel at h
  by_cases h1 : (sortL keys).length < g
  · rw [if_pos h1] at h
    exact Except.noConfusion h
  rw [if_neg h1] at h
  by_cases h2 : g < m
  · rw [if_pos h2] at h
    exact Except.noConfusion h
  rw [if_neg h2] at h
  by_cases h3 : npt < m
  · rw [if_pos h3] at h
    exact Except.noConfusion h
  rw [if_neg h3] at h
  rw [Except.ok.injEq, Prod.mk.injEq] at h
  obtain ⟨hT, hR⟩ := h
  rw [sortL_length] at h1
  refine ⟨by omega, by omega, by omega, hT.symm, ?_, ?_, ?_, ?_, ?_, ?_⟩ <;>
    rw [← hR] <;> rfl

/-- C2.  `generate_abbreviated_wheel` raises a validation error exactly
when one of the preconditions `|keys| ≥ guarantee_if_hit`,
`guarantee_match ≤ guarantee_if_hit`, `guarantee_match ≤ draw_size` is
violated; otherwise it returns normally, with the report carrying the
remaining uncovered-subset count (covered + remaining = total) and a
`verified` flag computed by the independent verifier. -/
theorem claim_C2_wheel_preconditions {σ : Type} (rng : Rng σ) (s : σ)
    (key_numbers : List ℕ) (guarantee_if_hit guarantee_match n_per_ticket max_tickets : ℕ) :
    ((∃ e, generate_abbreviated_wheel rng s key_numbers guarantee_if_hit
        guarantee_match n_per_ticket max_tickets = .error e) ↔
      (key_numbers.length < guarantee_if_hit ∨
        guarantee_if_hit < guarantee_match ∨
        n_per_ticket < guarantee_match)) ∧
    (∀ tickets rep, generate_abbreviated_wheel rng s key_numbers guarantee_if_hit
        guarantee_match n_per_ticket max_tickets = .ok (tickets, rep) →
      rep.subsets_covered + rep.uncovered_remaining = rep.subsets_to_cover ∧
      rep.subsets_to_cover = Nat.choose key_numbers.length guarantee_if_hit ∧
      rep.verified = verify_wheel_guarantee tickets (sortL key_numbers)
        guarantee_if_hit guarantee_match ∧
      rep.n_tickets = tickets.length) := by
  constructor
  · constructor
    · rintro ⟨e, he⟩
      by_contra hok
      push_neg at hok
      unfold generate_abbreviated_wheel at he
      rw [if_neg (by rw [sortL_length]; omega), if_neg (by omega),
        if_neg (by omega)] at he
      exact Except.noConfusion he
    · intro hbad
      unfold generate_abbreviated_wheel
      by_cases h1 : (sortL key_numbers).length < guarantee_if_hit
      · rw [if_pos h1]
        exact ⟨_, rfl⟩
      rw [if_neg h1]
      rw [sortL_length] at h1
      by_cases h2 : guarantee_if_hit < guarantee_match
      · rw [if_pos h2]
        exact ⟨_, rfl⟩
      rw [if_neg h2]
      rw [if_pos (by omega)]
      exact ⟨_, rfl⟩
  · intro tickets rep h
    obtain ⟨hp1, hp2, hp3, hT, hTot, hCov, hRem, hVer, hNt, _⟩ := gen_wheel_ok_elim h
    have hUnc : (wheelFinal rng s key_numbers guarantee_if_hit guarantee_match
        n_per_ticket max_tickets).uncovered.card ≤
        (combinations guarantee_if_hit (sortL key_numbers)).length := by
      have hinv := wheelLoop_inv rng (sortL key_numbers)
        ((numberRange MIN_NUMBER MAX_NUMBER).filter (fun n => n ∉ sortL key_numbers))
        guarantee_match n_per_ticket
        (combinations guarantee_if_hit (sortL key_numbers))
        (min 3000 (max 1000 ((combinations guarantee_if_hit (sortL key_numbers)).length * 10)))
        max_tickets max_tickets
        ⟨[], Finset.range (combinations guarantee_if_hit (sortL key_numbers)).length, s⟩
        (by ext idx; simp [uncoveredBy])
      calc (wheelFinal rng s key_numbers guarantee_if_hit guarantee_match
              n_per_ticket max_tickets).uncovered.card
          = ((Finset.range (combinations guarantee_if_hit (sortL key_numbers)).length).filter
              _).card := by rw [wheelFinal]; rw [hinv]
        _ ≤ (Finset.range (combinations guarantee_if_hit (sortL key_numbers)).length).card :=
              Finset.card_filter_le _ _
        _ = (combinations guarantee_if_hit (sortL key_numbers)).length :=
              Finset.card_range _
    refine ⟨?_, ?_, ?_, ?_⟩
    · rw [hCov, hRem]
      omega
    · rw [hTot, length_combinations, sortL_length]
    · rw [hVer, hT]
    · rw [hNt, hT]

/-- Quantifying over defaulted lookups of a list is quantifying over its
members. -/
theorem forall_getD_iff_forall_mem {α : Type} (l : List α) (d : α) (P : α → Prop) :
    (∀ i < l.length, P (l.getD i d)) ↔ ∀ c ∈ l, P c := by
  constructor
  · intro h c hc
    obtain ⟨i, hi, heq⟩ := List.mem_iff_getElem.mp hc
    have := h i hi
    rwa [List.getD_eq_getElem l d hi, heq] at this
  · intro h i hi
    rw [List.getD_eq_getElem l d hi]
    exact h _ (List.getElem_mem hi)

/-- C10.  In the guarantee report of `generate_abbreviated_wheel`, the
three coverage fields agree: `verified` holds iff no uncovered subset
remains, iff (for a positive subset count) the coverage percentage is
exactly 100 — the builder's incremental bookkeeping coincides with the
independent exhaustive verifier's verdict. -/
theorem claim_C10_report_consistency {σ : Type} (rng : Rng σ) (s : σ)
    (key_numbers : List ℕ) (guarantee_if_hit guarantee_match n_per_ticket max_tickets : ℕ)
    (tickets : List (List ℕ)) (rep : WheelGuarantee)
    (h : generate_abbreviated_wheel rng s key_numbers guarantee_if_hit
      guarantee_match n_per_ticket max_tickets = .ok (tickets, rep)) :
    (rep.verified = true ↔ rep.uncovered_remaining = 0) ∧
    (0 < rep.subsets_to_cover →
      (rep.verified = true ↔ rep.coverage_pct = 100)) := by
  obtain ⟨hp1, hp2, hp3, hT, hTot, hCov, hRem, hVer, hNt, hPct⟩ := gen_wheel_ok_elim h
  set key' := sortL key_numbers with hkey'
  set hs := combinations guarantee_if_hit key' with hhs
  set F := wheelFinal rng s key_numbers guarantee_if_hit guarantee_match
    n_per_ticket max_tickets with hF
  have hinv := wheelLoop_inv rng key'
    ((numberRange MIN_NUMBER MAX_NUMBER).filter (fun n => n ∉ key'))
    guarantee_match n_per_ticket hs
    (min 3000 (max 1000 (hs.length * 10))) max_tickets max_tickets
    ⟨[], Finset.range hs.length, s⟩ (by ext idx; simp [uncoveredBy])
  have hU : F.uncovered = (Finset.range hs.length).filter
      (fun idx => uncoveredBy hs guarantee_match F.tickets idx = true) := by
    rw [hF]
    simp only [wheelFinal]
    exact hinv
  have hcardle : F.uncovered.card ≤ hs.length := by
    rw [hU]
    calc ((Finset.range hs.length).filter _).card
        ≤ (Finset.range hs.length).card := Finset.card_filter_le _ _
      _ = hs.length := Finset.card_range _
  have hverify : (verify_wheel_guarantee F.tickets key' guarantee_if_hit
      guarantee_match = true) ↔
      ∀ c ∈ hs, ∃ t ∈ F.tickets, guarantee_match ≤ overlapCount c t := by
    rw [verify_wheel_guarantee, List.all_eq_true, ← hhs]
    constructor
    · intro hall c hc
      have := hall c hc
      rw [List.any_eq_true] at this
      obtain ⟨t, ht, hd⟩ := this
      exact ⟨t, ht, of_decide_eq_true hd⟩
    · intro hall c hc
      rw [List.any_eq_true]
      obtain ⟨t, ht, hle⟩ := hall c hc
      exact ⟨t, ht, decide_eq_true hle⟩
  have hcard0 : (F.uncovered.card = 0) ↔
      ∀ c ∈ hs, ∃ t ∈ F.tickets, guarantee_match ≤ overlapCount c t := by
    rw [Finset.card_eq_zero, hU, Finset.filter_eq_empty_iff]
    rw [← forall_getD_iff_forall_mem hs [] (fun c => ∃ t ∈ F.tickets,
      guarantee_match ≤ overlapCount c t)]
    constructor
    · intro hall i hi
      have hni := hall (Finset.mem_range.mpr hi)
      rw [uncoveredBy, List.all_eq_true] at hni
      push_neg at hni
      obtain ⟨t, ht, hnot⟩ := hni
      have hge : ¬ overlapCount (hs.getD i []) t < guarantee_match := by
        simpa using hnot
      exact ⟨t, ht, by omega⟩
    · intro hall idx hidx
      rw [Finset.mem_range] at hidx
      obtain ⟨t, ht, hle⟩ := hall idx hidx
      rw [uncoveredBy, List.all_eq_true]
      push_neg
      refine ⟨t, ht, ?_⟩
      simp only [ne_eq, decide_eq_true_eq]
      omega
  have hmain : rep.verified = true ↔ rep.uncovered_remaining = 0 := by
    rw [hVer, hRem, hverify, hcard0]
  refine ⟨hmain, ?_⟩
  intro hpos
  rw [hTot] at hpos
  rw [hmain, hRem, hPct, if_pos hpos]
  have ht0 : ((hs.length : ℕ) : ℚ) ≠ 0 := by
    rw [Nat.cast_ne_zero]
    omega
  constructor
  · intro hu0
    rw [hu0, Nat.sub_zero]
    field_simp
  · intro heq
    rw [div_mul_eq_mul_div, div_eq_iff ht0] at heq
    have hx : ((hs.length - F.uncovered.card : ℕ) : ℚ) * 100 =
        ((hs.length : ℕ) : ℚ) * 100 := by linarith
    have := mul_right_cancel₀ (by norm_num : (100 : ℚ) ≠ 0) hx
    rw [Nat.cast_inj] at this
    omega

/-- Inhabitant of the wheel guarantee record used to project concrete run
results in witnesses. -/
def wgDefault : WheelGuarantee :=
  { n_key_numbers := 0, n_tickets := 0, guarantee_if_hit := 0, guarantee_match := 0,
    subsets_to_cover := 0, subsets_covered := 0, coverage_pct := 0, verified := false,
    uncovered_remaining := 0 }

/-- Inhabitant of the coverage statistics record used to project concrete
run results in witnesses. -/
def csDefault : CoverageStats :=
  { total_tickets := 0, unique_numbers := 0, number_coverage_pct := 0,
    pairs_covered := 0, pairs_total := 0, pair_coverage_pct := 0,
    triples_covered := 0, avg_overlap := 0, max_overlap := 0, min_overlap := 0,
    number_freq_var := 0, most_used_number := (0, 0), least_used_number := (0, 0) }

/-- Witness for C2: with `max_tickets = 0` the builder exhausts its ticket
budget immediately and still returns normally (no error is an option only
for precondition violations), reporting covered + remaining = total. -/
theorem claim_C2_wheel_preconditions_witness :
    ((∃ e, generate_abbreviated_wheel detRng () [1, 2, 3, 4] 3 3 7 0 = .error e) ↔
      (([1, 2, 3, 4] : List ℕ).length < 3 ∨ 3 < 3 ∨ 7 < 3)) ∧
    ((generate_abbreviated_wheel detRng () [1, 2, 3, 4] 3 3 7 0).toOption.getD
        ([], wgDefault)).2.subsets_covered +
      ((generate_abbreviated_wheel detRng () [1, 2, 3, 4] 3 3 7 0).toOption.getD
        ([], wgDefault)).2.uncovered_remaining =
      ((generate_abbreviated_wheel detRng () [1, 2, 3, 4] 3 3 7 0).toOption.getD
        ([], wgDefault)).2.subsets_to_cover :=
  ⟨(claim_C2_wheel_preconditions detRng () [1, 2, 3, 4] 3 3 7 0).1,
   ((claim_C2_wheel_preconditions detRng () [1, 2, 3, 4] 3 3 7 0).2
     ((generate_abbreviated_wheel detRng () [1, 2, 3, 4] 3 3 7 0).toOption.getD
       ([], wgDefault)).1
     ((generate_abbreviated_wheel detRng () [1, 2, 3, 4] 3 3 7 0).toOption.getD
       ([], wgDefault)).2
     rfl).1⟩

/-- Witness for C10: on a concrete truncated run (`max_tickets = 0`) the
report consistency holds, with `verified = false` and four uncovered
subsets remaining. -/
theorem claim_C10_report_consistency_witness :
    (((generate_abbreviated_wheel detRng () [1, 2, 3, 4] 3 3 7 0).toOption.getD
        ([], wgDefault)).2.verified = true ↔
      ((generate_abbreviated_wheel detRng () [1, 2, 3, 4] 3 3 7 0).toOption.getD
        ([], wgDefault)).2.uncovered_remaining = 0) ∧
    ((generate_abbreviated_wheel detRng () [1, 2, 3, 4] 3 3 7 0).toOption.getD
        ([], wgDefault)).2.verified = false ∧
    ((generate_abbreviated_wheel detRng () [1, 2, 3, 4] 3 3 7 0).toOption.getD
        ([], wgDefault)).2.uncovered_remaining = 4 :=
  ⟨(claim_C10_report_consistency detRng () [1, 2, 3, 4] 3 3 7 0
      ((generate_abbreviated_wheel detRng () [1, 2, 3, 4] 3 3 7 0).toOption.getD
        ([], wgDefault)).1
      ((generate_abbreviated_wheel detRng () [1, 2, 3, 4] 3 3 7 0).toOption.getD
        ([], wgDefault)).2
      rfl).1,
   by decide, by decide⟩

/-- C7.  Every portfolio returned by the greedy builder has exactly
`n_tickets` tickets, and every ticket generated by the greedy builder or
the wheel builder is a valid ticket: `draw_size` distinct, sorted numbers
within the pool. -/
theorem claim_C7_ticket_validity {σ : Type} (rng : Rng σ) (hv : rng.Valid) :
    (∀ (s : σ) (n_tickets n_numbers min_num max_num : ℕ) (mcs : Option ℕ)
       (portfolio : List (List ℕ)) (stats : CoverageStats),
      optimize_portfolio_coverage rng s n_tickets n_numbers min_num max_num mcs =
        .ok (portfolio, stats) →
      portfolio.length = n_tickets ∧
      ∀ t ∈ portfolio, ValidTicket n_numbers min_num max_num t) ∧
    (∀ (s : σ) (key_numbers : List ℕ) (g m npt mt : ℕ)
       (tickets : List (List ℕ)) (rep : WheelGuarantee),
      key_numbers.Nodup →
      (∀ x ∈ key_numbers, MIN_NUMBER ≤ x ∧ x ≤ MAX_NUMBER) →
      generate_abbreviated_wheel rng s key_numbers g m npt mt = .ok (tickets, rep) →
      ∀ t ∈ tickets, ValidTicket npt MIN_NUMBER MAX_NUMBER t) := by
  constructor
  · intro s n_tickets n_numbers min_num max_num mcs portfolio stats h
    unfold optimize_portfolio_coverage at h
    by_cases hc : n_tickets = 0 ∨ n_numbers ≤ (numberRange min_num max_num).length
    · rw [if_pos hc] at h
      rw [Except.ok.injEq, Prod.mk.injEq] at h
      obtain ⟨hp, _⟩ := h
      rcases hc with h0 | hle
      · subst h0
        refine ⟨by rw [← hp]; rfl, ?_⟩
        intro t ht
        rw [← hp] at ht
        simp [optLoop] at ht
      · have hloop := optLoop_portfolio hv min_num max_num n_numbers
          (mcs.getD 1500) hle n_tickets ⟨[], ∅, ∅, s⟩
        refine ⟨?_, ?_⟩
        · rw [← hp, hloop.1]
          simp
        · intro t ht
          rw [← hp] at ht
          rcases hloop.2 t ht with hmem | hval
          · exact absurd hmem (List.not_mem_nil t)
          · exact hval
    · rw [if_neg hc] at h
      exact Except.noConfusion h
  · intro s key_numbers g m npt mt tickets rep hknd hkb h
    obtain ⟨_, _, _, hT, _⟩ := gen_wheel_ok_elim h
    rw [hT, wheelFinal]
    refine wheelLoop_valid hv (sortL key_numbers) m npt (sortL_nodup hknd)
      (fun x hx => hkb x (mem_sortL.mp hx))
      (combinations g (sortL key_numbers))
      (fun l hl => (mem_combinations.mp hl).2)
      _ mt mt _ ?_
    intro t ht
    exact absurd ht (List.not_mem_nil t)

/-- Witness for C7: a one-ticket optimizer run over the 2-of-5 pool and a
one-ticket abbreviated wheel over keys `[1, 2, 3]`, all tickets valid. -/
theorem claim_C7_ticket_validity_witness :
    (∃ p st, optimize_portfolio_coverage detRng () 1 2 1 5 (some 0) = .ok (p, st) ∧
      p.length = 1 ∧ ∀ t ∈ p, ValidTicket 2 1 5 t) ∧
    (∃ ts rep, generate_abbreviated_wheel detRng () [1, 2, 3] 3 3 7 1 = .ok (ts, rep) ∧
      ∀ t ∈ ts, ValidTicket 7 1 39 t) := by
  constructor
  · have hgoal := (claim_C7_ticket_validity detRng detRng_valid).1 () 1 2 1 5 (some 0)
      ((optimize_portfolio_coverage detRng () 1 2 1 5 (some 0)).toOption.getD
        ([], csDefault)).1
      ((optimize_portfolio_coverage detRng () 1 2 1 5 (some 0)).toOption.getD
        ([], csDefault)).2
      rfl
    exact ⟨_, _, rfl, hgoal.1, hgoal.2⟩
  · have hgoal := (claim_C7_ticket_validity detRng detRng_valid).2 () [1, 2, 3] 3 3 7 1
      ((generate_abbreviated_wheel detRng () [1, 2, 3] 3 3 7 1).toOption.getD
        ([], wgDefault)).1
      ((generate_abbreviated_wheel detRng () [1, 2, 3] 3 3 7 1).toOption.getD
        ([], wgDefault)).2
      (by decide) (by decide) rfl
    exact ⟨_, _, rfl, hgoal⟩

/-! ### Claim C8: monotone bounded pair coverage -/

/-- The value pairs `a < b` over the pool interval. -/
def goodPairs (lo hi : ℕ) : Finset (ℕ × ℕ) :=
  ((Finset.Icc lo hi) ×ˢ (Finset.Icc lo hi)).filter (fun p => p.1 < p.2)

/-- There are at most `C(pool, 2)` value pairs over a pool of that size. -/
theorem goodPairs_card_le (lo hi : ℕ) :
    (goodPairs lo hi).card ≤ Nat.choose (hi + 1 - lo) 2 := by
  have hmaps : ∀ p ∈ goodPairs lo hi,
      ({p.1, p.2} : Finset ℕ) ∈ (Finset.Icc lo hi).powersetCard 2 := by
    intro p hp
    rw [goodPairs, Finset.mem_filter, Finset.mem_product] at hp
    rw [Finset.mem_powersetCard]
    constructor
    · intro x hx
      rcases Finset.mem_insert.mp hx with rfl | hx'
      · exact hp.1.1
      · rw [Finset.mem_singleton] at hx'
        exact hx' ▸ hp.1.2
    · rw [Finset.card_insert_of_not_mem (by
        rw [Finset.mem_singleton]
        omega), Finset.card_singleton]
  have hinj : Set.InjOn (fun p : ℕ × ℕ => ({p.1, p.2} : Finset ℕ)) (goodPairs lo hi) := by
    intro p hp q hq heq
    rw [Finset.mem_coe, goodPairs, Finset.mem_filter] at hp hq
    have heq' : ({p.1, p.2} : Finset ℕ) = {q.1, q.2} := heq
    have hq1 : q.1 ∈ ({p.1, p.2} : Finset ℕ) := by
      rw [heq']
      exact Finset.mem_insert_self _ _
    have hq2 : q.2 ∈ ({p.1, p.2} : Finset ℕ) := by
      rw [heq']
      exact Finset.mem_insert_of_mem (Finset.mem_singleton_self _)
    have hp1 : p.1 ∈ ({q.1, q.2} : Finset ℕ) := by
      rw [← heq']
      exact Finset.mem_insert_self _ _
    simp only [Finset.mem_insert, Finset.mem_singleton] at hq1 hq2 hp1
    have hplt := hp.2
    have hqlt := hq.2
    have : p.1 = q.1 ∧ p.2 = q.2 := by omega
    exact Prod.ext this.1 this.2
  calc (goodPairs lo hi).card
      ≤ ((Finset.Icc lo hi).powersetCard 2).card :=
        Finset.card_le_card_of_injOn _ hmaps hinj
    _ = Nat.choose (Finset.Icc lo hi).card 2 := Finset.card_powersetCard _ _
    _ = Nat.choose (hi + 1 - lo) 2 := by rw [Nat.card_Icc]

/-- The pairs of a valid ticket lie in the pool's pair universe. -/
theorem pairsOf_subset_goodPairs {n lo hi : ℕ} {t : List ℕ}
    (hval : ValidTicket n lo hi t) :
    (pairsOf t).toFinset ⊆ goodPairs lo hi := by
  obtain ⟨_, hsorted, hnodup, hbounds⟩ := hval
  intro p hp
  rw [List.mem_toFinset] at hp
  have := (mem_pairsOf_of_sorted (sorted_lt_of_sorted_nodup hsorted hnodup)).mp hp
  rw [goodPairs, Finset.mem_filter, Finset.mem_product]
  obtain ⟨h1, h2, hlt⟩ := this
  obtain ⟨hb1, hb2⟩ := hbounds p.1 h1
  obtain ⟨hb3, hb4⟩ := hbounds p.2 h2
  exact ⟨⟨Finset.mem_Icc.mpr ⟨hb1, hb2⟩, Finset.mem_Icc.mpr ⟨hb3, hb4⟩⟩, hlt⟩

/-- The greedy loop keeps the covered pairs inside the pool's pair
universe. -/
theorem optLoop_pairs_bound {σ : Type} {rng : Rng σ} (hv : rng.Valid)
    (lo hi n mcs : ℕ) (hn : n ≤ (numberRange lo hi).length) :
    ∀ (k : ℕ) (st : OptState σ), st.covered_pairs ⊆ goodPairs lo hi →
      (optLoop rng (numberRange lo hi) n lo hi mcs k st).covered_pairs ⊆
        goodPairs lo hi := by
  intro k
  induction k with
  | zero => intro st hsub; exact hsub
  | succ k ih =>
    intro st hsub
    obtain ⟨t, _, hcov, hvalid⟩ := optStep_portfolio hv lo hi n mcs hn st
    refine ih _ ?_
    rw [hcov]
    exact Finset.union_subset hsub (pairsOf_subset_goodPairs hvalid)

/-- The double counting loop computes exactly `C(pool, 2)`. -/
theorem totalPossiblePairs_eq_choose :
    ∀ (k lo hi : ℕ), hi + 1 - lo = k → totalPossiblePairs lo hi = Nat.choose k 2 := by
  intro k
  induction k with
  | zero =>
    intro lo hi hk
    rw [totalPossiblePairs, numberRange, hk]
    simp
  | succ k ih =>
    intro lo hi hk
    have hlohi : lo ≤ hi := by omega
    have hstep : numberRange lo hi = lo :: numberRange (lo + 1) hi := by
      have h2 : hi + 1 - (lo + 1) = k := by omega
      rw [numberRange, numberRange, hk, h2, List.range'_succ]
    rw [totalPossiblePairs, hstep, List.map_cons, List.sum_cons]
    have htail := ih (lo + 1) hi (by omega)
    rw [totalPossiblePairs] at htail
    have hlen : hi + 1 - (lo + 1) = k := by omega
    rw [htail, numberRange_length, hlen, Nat.choose_succ_succ, Nat.choose_one_right]

/-- C8.  During portfolio construction the covered-pair set starts empty,
only grows at each appended ticket, and its size never exceeds
`C(pool_size, 2)` (741 for a 39-number pool); the reported `pairs_total`
equals `C(pool_size, 2)`. -/
theorem claim_C8_pair_coverage {σ : Type} (rng : Rng σ) (hv : rng.Valid)
    (pool n mcs : ℕ) (hn : n ≤ pool) :
    (∀ s : σ, (optLoop rng (numberRange 1 pool) n 1 pool mcs 0
      ⟨[], ∅, ∅, s⟩).covered_pairs = ∅) ∧
    (∀ st : OptState σ, st.covered_pairs ⊆
      (optStep rng (numberRange 1 pool) n 1 pool mcs st).covered_pairs) ∧
    (∀ (k : ℕ) (s : σ),
      ((optLoop rng (numberRange 1 pool) n 1 pool mcs k
        ⟨[], ∅, ∅, s⟩).covered_pairs).card ≤ Nat.choose pool 2) ∧
    (totalPossiblePairs 1 pool = Nat.choose pool 2) ∧
    (Nat.choose 39 2 = 741) ∧
    (∀ (s : σ) (n_tickets : ℕ) (mcs' : Option ℕ)
       (portfolio : List (List ℕ)) (stats : CoverageStats),
      optimize_portfolio_coverage rng s n_tickets n 1 pool mcs' = .ok (portfolio, stats) →
      stats.pairs_total = Nat.choose pool 2) := by
  have hn' : n ≤ (numberRange 1 pool).length := by
    rw [numberRange_length]
    omega
  have hchoose : totalPossiblePairs 1 pool = Nat.choose pool 2 :=
    totalPossiblePairs_eq_choose pool 1 pool (by omega)
  refine ⟨fun s => rfl, ?_, ?_, hchoose, by decide, ?_⟩
  · intro st
    show st.covered_pairs ⊆ st.covered_pairs ∪ _
    exact Finset.subset_union_left
  · intro k s
    have hsub := optLoop_pairs_bound hv 1 pool n mcs hn' k ⟨[], ∅, ∅, s⟩
      (by simp)
    calc ((optLoop rng (numberRange 1 pool) n 1 pool mcs k
            ⟨[], ∅, ∅, s⟩).covered_pairs).card
        ≤ (goodPairs 1 pool).card := Finset.card_le_card hsub
      _ ≤ Nat.choose (pool + 1 - 1) 2 := goodPairs_card_le 1 pool
      _ = Nat.choose pool 2 := by norm_num
  · intro s n_tickets mcs' portfolio stats h
    unfold optimize_portfolio_coverage at h
    by_cases hc : n_tickets = 0 ∨ n ≤ (numberRange 1 pool).length
    · rw [if_pos hc, Except.ok.injEq, Prod.mk.injEq] at h
      rw [← h.2, ← hchoose]
      rfl
    · rw [if_neg hc] at h
      exact Except.noConfusion h

/-- Witness for C8: concrete empty start, one-step bound and pair totals
over the 2-of-5 pool. -/
theorem claim_C8_pair_coverage_witness :
    (optLoop detRng (numberRange 1 5) 2 1 5 3 0
      ⟨[], ∅, ∅, ()⟩).covered_pairs = ∅ ∧
    ((optLoop detRng (numberRange 1 5) 2 1 5 3 1
      ⟨[], ∅, ∅, ()⟩).covered_pairs).card ≤ Nat.choose 5 2 ∧
    totalPossiblePairs 1 5 = Nat.choose 5 2 ∧
    Nat.choose 39 2 = 741 :=
  ⟨(claim_C8_pair_coverage detRng detRng_valid 5 2 3 (by decide)).1 (),
   (claim_C8_pair_coverage detRng detRng_valid 5 2 3 (by decide)).2.2.1 1 (),
   (claim_C8_pair_coverage detRng detRng_valid 5 2 3 (by decide)).2.2.2.1,
   (claim_C8_pair_coverage detRng detRng_valid 5 2 3 (by decide)).2.2.2.2.1⟩

/-! ### Claim C9: the per-number frequency statistics -/

/-- The fold of per-ticket unions is the set of numbers of the flattened
portfolio. -/
theorem usedNumbers_foldl (portfolio : List (List ℕ)) :
    ∀ acc : Finset ℕ,
      portfolio.foldl (fun acc t => acc ∪ t.toFinset) acc =
        acc ∪ portfolio.flatten.toFinset := by
  induction portfolio with
  | nil => intro acc; simp
  | cons t rest ih =>
    intro acc
    rw [List.foldl_cons, ih, List.flatten_cons, List.toFinset_append,
      Finset.union_assoc]

theorem mem_firstOccs : ∀ (l : List ℕ) (x : ℕ), x ∈ firstOccs l ↔ x ∈ l := by
  intro l
  induction l with
  | nil => intro x; simp [firstOccs]
  | cons y ys ih =>
    intro x
    simp only [firstOccs, List.mem_cons, List.mem_filter]
    constructor
    · rintro (rfl | ⟨h, _⟩)
      · exact Or.inl rfl
      · exact Or.inr ((ih x).mp h)
    · rintro (rfl | h)
      · exact Or.inl rfl
      · by_cases hxy : x = y
        · exact Or.inl hxy
        · exact Or.inr ⟨(ih x).mpr h, by simpa using hxy⟩

theorem firstOccs_nodup : ∀ l : List ℕ, (firstOccs l).Nodup := by
  intro l
  induction l with
  | nil => exact List.nodup_nil
  | cons y ys ih =>
    rw [firstOccs, List.nodup_cons]
    constructor
    · intro hy
      rw [List.mem_filter] at hy
      simp at hy
    · exact List.Nodup.filter _ ih

theorem firstOccs_toFinset (l : List ℕ) : (firstOccs l).toFinset = l.toFinset := by
  ext x
  rw [List.mem_toFinset, List.mem_toFinset, mem_firstOccs]

/-- Sum of a function over a duplicate-free list is the sum over its
finset of values. -/
theorem nodup_map_sum_eq_finset_sum (f : ℕ → ℚ) :
    ∀ (l : List ℕ), l.Nodup → (l.map f).sum = l.toFinset.sum f := by
  intro l
  induction l with
  | nil => simp
  | cons x xs ih =>
    intro hn
    rw [List.nodup_cons] at hn
    rw [List.map_cons, List.sum_cons, List.toFinset_cons,
      Finset.sum_insert (by rw [List.mem_toFinset]; exact hn.1), ih hn.2]

/-- In a pairwise-related list, every element relates to the last one (or
is it). -/
theorem pairwise_rel_getLast {α : Type} {r : α → α → Prop} :
    ∀ {l : List α} (h : l.Pairwise r) (hne : l ≠ []) (x : α), x ∈ l →
      x = l.getLast hne ∨ r x (l.getLast hne) := by
  intro l
  induction l with
  | nil => intro _ hne; exact absurd rfl hne
  | cons a t ih =>
    intro h hne x hx
    cases t with
    | nil =>
      rcases List.mem_singleton.mp hx with rfl
      exact Or.inl rfl
    | cons b u =>
      rw [List.pairwise_cons] at h
      have hlast : (a :: b :: u).getLast hne = (b :: u).getLast (by simp) := by
        rw [List.getLast_cons]
      rcases List.mem_cons.mp hx with rfl | hx'
      · right
        rw [hlast]
        exact h.1 _ (List.getLast_mem _)
      · rw [hlast]
        exact ih h.2 (by simp) x hx'

/-- The variance the code computes over the `Counter` values equals the
variance over the finset of used numbers. -/
theorem calc_var_eq_specVarUsed (portfolio : List (List ℕ))
    (hne : portfolio.flatten ≠ []) :
    listVar (((firstOccs portfolio.flatten).map
      (fun n => (n, portfolio.flatten.count n))).map (fun p => p.2)) =
    specVarUsed portfolio := by
  have hlnd := firstOccs_nodup portfolio.flatten
  have hlne : firstOccs portfolio.flatten ≠ [] := by
    cases hflat : portfolio.flatten with
    | nil => exact absurd hflat hne
    | cons x xs => simp [firstOccs]
  have hmapmap : ((firstOccs portfolio.flatten).map
      (fun n => (n, portfolio.flatten.count n))).map (fun p : ℕ × ℕ => p.2) =
      (firstOccs portfolio.flatten).map (fun n => portfolio.flatten.count n) := by
    rw [List.map_map]
    rfl
  rw [hmapmap]
  have hvne : (firstOccs portfolio.flatten).map
      (fun n => portfolio.flatten.count n) ≠ [] := by
    simpa using hlne
  have hvlen : ((firstOccs portfolio.flatten).map
      (fun n => portfolio.flatten.count n)).length =
      portfolio.flatten.toFinset.card := by
    rw [List.length_map, ← firstOccs_toFinset portfolio.flatten,
      List.toFinset_card_of_nodup hlnd]
  have hsum1 : (((firstOccs portfolio.flatten).map
      (fun n => portfolio.flatten.count n)).map (fun x : ℕ => (x : ℚ))).sum =
      portfolio.flatten.toFinset.sum (fun n => ((portfolio.flatten.count n : ℕ) : ℚ)) := by
    rw [List.map_map, nodup_map_sum_eq_finset_sum _ _ hlnd,
      firstOccs_toFinset]
    rfl
  have hmean : listMean ((firstOccs portfolio.flatten).map
      (fun n => portfolio.flatten.count n)) =
      (portfolio.flatten.toFinset.sum (fun n => ((portfolio.flatten.count n : ℕ) : ℚ))) /
        (portfolio.flatten.toFinset.card : ℚ) := by
    rw [listMean, if_neg hvne, hsum1, hvlen]
  rw [listVar, if_neg hvne, hmean, hvlen]
  rw [List.map_map, nodup_map_sum_eq_finset_sum _ _ hlnd, firstOccs_toFinset]
  rfl

/-- C9 (amended).  The per-number usage frequency of the statistics record
counts only the numbers appearing in at least one ticket (not the full
range `[1, pool_size]`), and `number_freq_std` is the standard deviation of
those used-number counts only — zero counts of unused numbers are
excluded; the most- and least-used entries are genuine argmax/argmin pairs
of that restricted histogram. -/
theorem claim_C9_stats_amended (portfolio : List (List ℕ))
    (cp : Finset (ℕ × ℕ)) (ct : Finset (ℕ × ℕ × ℕ)) (tpp max_num : ℕ)
    (hne : portfolio.flatten ≠ []) :
    (calcCoverageStats portfolio cp ct tpp max_num).unique_numbers =
      portfolio.flatten.toFinset.card ∧
    (calcCoverageStats portfolio cp ct tpp max_num).number_freq_var =
      specVarUsed portfolio ∧
    ((calcCoverageStats portfolio cp ct tpp max_num).most_used_number ∈
      (firstOccs portfolio.flatten).map
        (fun n => (n, portfolio.flatten.count n)) ∧
      ∀ n ∈ portfolio.flatten.toFinset, portfolio.flatten.count n ≤
        (calcCoverageStats portfolio cp ct tpp max_num).most_used_number.2) ∧
    ((calcCoverageStats portfolio cp ct tpp max_num).least_used_number ∈
      (firstOccs portfolio.flatten).map
        (fun n => (n, portfolio.flatten.count n)) ∧
      ∀ n ∈ portfolio.flatten.toFinset,
        (calcCoverageStats portfolio cp ct tpp max_num).least_used_number.2 ≤
          portfolio.flatten.count n) := by
  haveI instTot : IsTotal (ℕ × ℕ) (fun p q : ℕ × ℕ => q.2 ≤ p.2) :=
    ⟨fun a b => le_total b.2 a.2⟩
  haveI instTrans : IsTrans (ℕ × ℕ) (fun p q : ℕ × ℕ => q.2 ≤ p.2) :=
    ⟨fun _ _ _ hab hbc => le_trans hbc hab⟩
  have hlne : firstOccs portfolio.flatten ≠ [] := by
    cases hflat : portfolio.flatten with
    | nil => exact absurd hflat hne
    | cons x xs => simp [firstOccs]
  have hitems_ne : (firstOccs portfolio.flatten).map
      (fun n => (n, portfolio.flatten.count n)) ≠ [] := by
    simpa using hlne
  set items := (firstOccs portfolio.flatten).map
    (fun n => (n, portfolio.flatten.count n)) with hitems
  set mc := List.insertionSort (fun p q : ℕ × ℕ => q.2 ≤ p.2) items with hmc
  have hperm : List.Perm mc items := List.perm_insertionSort _ _
  have hsorted : mc.Sorted (fun p q : ℕ × ℕ => q.2 ≤ p.2) :=
    List.sorted_insertionSort _ _
  have hmcne : mc ≠ [] := by
    intro hnil
    rw [hnil] at hperm
    exact hitems_ne (hperm.nil_eq).symm
  have hpair_mem : ∀ n ∈ portfolio.flatten.toFinset,
      (n, portfolio.flatten.count n) ∈ mc := by
    intro n hn
    refine hperm.mem_iff.mpr ?_
    rw [hitems, List.mem_map]
    exact ⟨n, (mem_firstOccs _ n).mpr (List.mem_toFinset.mp hn), rfl⟩
  refine ⟨?_, ?_, ?_, ?_⟩
  · show (portfolio.foldl (fun (acc : Finset ℕ) (t : List ℕ) => acc ∪ t.toFinset) ∅).card = _
    rw [usedNumbers_foldl portfolio ∅, Finset.empty_union]
  · show listVar (if items = [] then [0] else items.map (fun p => p.2)) = _
    rw [if_neg hitems_ne, hitems]
    exact calc_var_eq_specVarUsed portfolio hne
  · cases hmceq : mc with
    | nil => exact absurd hmceq hmcne
    | cons h t =>
      have hhead : (calcCoverageStats portfolio cp ct tpp max_num).most_used_number = h := by
        show mc.headD (0, 0) = h
        rw [hmceq]
        rfl
      constructor
      · rw [hhead]
        refine hperm.subset ?_
        rw [hmceq]
        exact List.mem_cons_self h t
      · intro n hn
        rw [hhead]
        have hmem := hpair_mem n hn
        rw [hmceq] at hmem
        rcases List.mem_cons.mp hmem with heq | hmem'
        · rw [← heq]
        · have hsorted' : (h :: t).Pairwise (fun p q : ℕ × ℕ => q.2 ≤ p.2) := by
            rw [← hmceq]
            exact hsorted
          exact (List.pairwise_cons.mp hsorted').1 _ hmem'
  · have hlast_mem : mc.getLast hmcne ∈ mc := List.getLast_mem hmcne
    have hlast : (calcCoverageStats portfolio cp ct tpp max_num).least_used_number =
        mc.getLast hmcne := by
      show (mc.getLast?).getD (0, 0) = mc.getLast hmcne
      rw [List.getLast?_eq_getLast mc hmcne]
      rfl
    constructor
    · rw [hlast]
      exact hperm.subset hlast_mem
    · intro n hn
      rw [hlast]
      rcases pairwise_rel_getLast hsorted hmcne _ (hpair_mem n hn) with heq | hrel
      · rw [← heq]
      · exact hrel

/-- Counterexample to C9 as stated: for the single ticket `[1, 2]` over a
pool of 3 numbers the code's frequency values are `[1, 1]` (no zero entry
for the unused number 3), giving variance 0, while the claimed full-range
histogram `[1, 1, 0]` has nonzero variance — the reported deviation is not
that of the histogram over the full range. -/
theorem claim_C9_counterexample :
    (calcCoverageStats [[1, 2]] ∅ ∅ 3 3).number_freq_var = 0 ∧
    specFullHistogramVar [[1, 2]] 3 ≠ 0 := by
  constructor
  · show listVar [1, 1] = 0
    have h2 : ([1, 1] : List ℕ) ≠ [] := by decide
    rw [listVar, if_neg h2, listMean, if_neg h2]
    norm_num
  · show listVar [1, 1, 0] ≠ 0
    have h3 : ([1, 1, 0] : List ℕ) ≠ [] := by decide
    rw [listVar, if_neg h3, listMean, if_neg h3]
    norm_num

/-- Witness for C9 (amended): the statistics of a concrete two-ticket
portfolio match the used-numbers variance. -/
theorem claim_C9_stats_amended_witness :
    (calcCoverageStats [[1, 2], [1, 3]] ∅ ∅ 741 39).unique_numbers =
      ([[1, 2], [1, 3]] : List (List ℕ)).flatten.toFinset.card ∧
    (calcCoverageStats [[1, 2], [1, 3]] ∅ ∅ 741 39).number_freq_var =
      specVarUsed [[1, 2], [1, 3]] :=
  ⟨(claim_C9_stats_amended [[1, 2], [1, 3]] ∅ ∅ 741 39 (by decide)).1,
   (claim_C9_stats_amended [[1, 2], [1, 3]] ∅ ∅ 741 39 (by decide)).2.1⟩
